import Mathlib

/-!
Huffman coding (huffman.c): a shallow embedding and its verified properties.

The development embeds `src/huffman/huffman.c` function by function.

Conventions of the embedding

* `htree *` is the inductive type `htree`: `htree.NULL` is the null pointer,
  `htree.node value frequency left right` a heap cell of `struct htree_node`.
* `unsigned int` arithmetic is arithmetic on `Nat` reduced modulo `UINT_MOD = 2^32`;
  `uint8_t` arithmetic is reduced modulo `256`.
* C strings of `bit_t` are lists of characters; arrays are lists.
* Loop counters and string lengths (`int`, `size_t`) are natural numbers.
* A call that does not return normally (`error` calling `exit(1)`, a dereference of a
  null pointer, a read past the end of an array) is a value `Except.error _`.
-/

namespace Huffman

/-! ## Types declared in the headers -/

/-- Modelled from the spec: the constant `NUM_SYMBOLS` of `freqtable.h` (not among the
sources); the spec fixes the alphabet to the 256 byte values. -/
abbrev NUM_SYMBOLS : Nat := 256

/-- Modelled from the spec: `symbol_t` of `freqtable.h`, one of the 256 byte values. -/
abbrev symbol_t : Type := Fin NUM_SYMBOLS

/-- The type `bit_t`: a character of a C string, `'0'` or `'1'` in a bit-string. -/
abbrev bit_t : Type := Char

/-- The type `bitstring_t`: a NUL-terminated string of `bit_t`, as the list of its characters. -/
abbrev bitstring_t : Type := List bit_t

/-- The modulus of `unsigned int` arithmetic. -/
abbrev UINT_MOD : Nat := 4294967296

/-- The type `freqtable_t`: an array of `NUM_SYMBOLS` counters, indexed by symbol. -/
abbrev freqtable_t : Type := symbol_t → Nat

/-- A frequency table whose counters are values of type `unsigned int`. -/
def is_freqtable (table : freqtable_t) : Prop := ∀ a, table a < UINT_MOD

/-- The type `codetable_t`: an array of `NUM_SYMBOLS` strings, `none` being the null
pointer left by `xcalloc` (no code for that symbol). -/
abbrev codetable_t : Type := symbol_t → Option bitstring_t

/-- The ways in which a call fails to return a result. `InsufficientSymbols` is the exit
of `build_htree` through `error`; `SymbolNotInTable` is an error kind that the spec
names and that no function of `huffman.c` raises; the other values are run-time faults
(a dereference of a null pointer, a read past the end of an array) and the exhaustion
of the iteration bound of a loop. -/
inductive fault where
  | InsufficientSymbols
  | SymbolNotInTable
  | null_dereference
  | out_of_bounds
  | out_of_fuel
  deriving DecidableEq, Repr

instance instDecidableEqExcept {ε α : Type} [DecidableEq ε] [DecidableEq α] :
    DecidableEq (Except ε α)
  | .ok a, .ok b =>
    if h : a = b then isTrue (by rw [h]) else isFalse (fun h2 => h (Except.ok.inj h2))
  | .error a, .error b =>
    if h : a = b then isTrue (by rw [h]) else isFalse (fun h2 => h (Except.error.inj h2))
  | .ok _, .error _ => isFalse (fun h => by cases h)
  | .error _, .ok _ => isFalse (fun h => by cases h)

/-- The cell `struct htree_node`, reached through a pointer `htree *`. -/
inductive htree where
  | NULL : htree
  | node (value : symbol_t) (frequency : Nat) (left : htree) (right : htree) : htree
  deriving DecidableEq, Repr

namespace htree

/-- The pointer test `H == NULL`. -/
def is_null : htree → Bool
  | NULL => true
  | node _ _ _ _ => false

/-- The field read `H->frequency` (only evaluated on non-null pointers). -/
def freq : htree → Nat
  | NULL => 0
  | node _ f _ _ => f

end htree

open htree

/-! ## Task 1: checking data structure invariants -/

/-- The function `is_htree_leaf`. -/
def is_htree_leaf : htree → Bool
  | NULL => false
  | node _ f l r => !(f == 0 || !r.is_null || !l.is_null)

/-- The function `is_htree`. The call `is_htree_interior(H)` is written out in place
(the value `interior`), which makes the recursion structural; `is_htree_interior` below
is the function itself and `is_htree_unfold` states the source equation. -/
def is_htree : htree → Bool
  | NULL => false
  | node v own l r =>
    let interior :=
      if l.is_null || r.is_null then false
      else if !is_htree l || !is_htree r || own != (l.freq + r.freq) % UINT_MOD then false
      else true
    if !interior && !is_htree_leaf (node v own l r) then false else true

/-- The function `is_htree_interior`. -/
def is_htree_interior : htree → Bool
  | NULL => false
  | node _ own l r =>
    if l.is_null || r.is_null then false
    else if !is_htree l || !is_htree r || own != (l.freq + r.freq) % UINT_MOD then false
    else true

/-! ## Task 2: building Huffman trees from frequency tables -/

/-- The function `htree_higher_priority`, the comparison handed to the priority queue. -/
def htree_higher_priority (e1 e2 : htree) : Bool :=
  if e1.freq < e2.freq then true else false

/-- Modelled from the spec: the priority queue of `lib/heaps.h` (not among the sources),
"an abstract min/first-priority extraction service". A queue state of type `Q` holds the
multiset `elems` of queued elements; `pq_rem` on a non-empty queue takes out one queued
element such that no queued element has higher priority (`htree_higher_priority`). -/
structure pq_service where
  Q : Type
  elems : Q → Multiset htree
  pq_new : Q
  pq_add : Q → htree → Q
  pq_rem : Q → htree × Q
  pq_empty : Q → Bool
  elems_new : elems pq_new = 0
  elems_add : ∀ q x, elems (pq_add q x) = x ::ₘ elems q
  empty_iff : ∀ q, pq_empty q = true ↔ elems q = 0
  elems_rem : ∀ q, elems q ≠ 0 → elems q = (pq_rem q).1 ::ₘ elems (pq_rem q).2
  rem_first : ∀ q, elems q ≠ 0 → ∀ y ∈ elems q, htree_higher_priority y (pq_rem q).1 = false

/-- The least-frequency element of `x :: xs` (the first one among equals) and the
remaining elements. -/
def list_rem : htree → List htree → htree × List htree
  | x, [] => (x, [])
  | x, y :: ys =>
    let r := list_rem y ys
    if r.1.freq < x.freq then (r.1, x :: r.2) else (x, y :: ys)

/-- A priority queue service kept as an unordered list: `pq_rem` takes out the first
element of least frequency. It serves as the concrete service of the examples. -/
def list_pq : pq_service where
  Q := List htree
  elems q := (q : Multiset htree)
  pq_new := []
  pq_add q x := x :: q
  pq_rem q :=
    match q with
    | [] => (NULL, [])
    | x :: xs => list_rem x xs
  pq_empty q := q.isEmpty
  elems_new := rfl
  elems_add _ _ := rfl
  empty_iff q := by cases q <;> simp
  elems_rem q hq := by
    have key : ∀ (ys : List htree) (x : htree),
        ((list_rem x ys).1 :: (list_rem x ys).2).Perm (x :: ys) := by
      intro ys
      induction ys with
      | nil => intro x; simp [list_rem]
      | cons y ys ih =>
        intro x
        simp only [list_rem]
        split
        · exact (List.Perm.swap _ _ _).trans ((ih y).cons x)
        · exact List.Perm.refl _
    cases q with
    | nil => simp at hq
    | cons x xs => exact (Multiset.coe_eq_coe.mpr (key xs x)).symm
  rem_first q hq := by
    have key : ∀ (ys : List htree) (x : htree), ∀ y ∈ x :: ys,
        (list_rem x ys).1.freq ≤ y.freq := by
      intro ys
      induction ys with
      | nil => intro x y hy; simp [list_rem] at hy ⊢; simp [hy]
      | cons z ys ih =>
        intro x y hy
        simp only [list_rem]
        split
        · rename_i hlt
          rcases List.mem_cons.mp hy with rfl | hy
          · exact Nat.le_of_lt hlt
          · exact ih z y hy
        · rename_i hlt
          rcases List.mem_cons.mp hy with rfl | hy
          · exact Nat.le_refl _
          · exact Nat.le_trans (Nat.le_of_not_lt hlt) (ih z y hy)
    cases q with
    | nil => simp at hq
    | cons x xs =>
      intro y hy
      have h := key xs x y (by simpa using hy)
      simp only [htree_higher_priority]
      rw [if_neg (Nat.not_lt.mpr h)]

/-- The first loop of `build_htree`: the number of non-zero entries of the table. -/
def count_nonzero (table : freqtable_t) : Nat :=
  (List.finRange NUM_SYMBOLS).foldl (fun count b => if table b ≠ 0 then count + 1 else count) 0

/-- The second loop of `build_htree`: one leaf per non-zero entry, added in symbol order. -/
def init_queue (P : pq_service) (table : freqtable_t) : P.Q :=
  (List.finRange NUM_SYMBOLS).foldl
    (fun Q a => if table a ≠ 0 then P.pq_add Q (node a (table a % UINT_MOD) NULL NULL) else Q)
    P.pq_new

/-- The `while (!pq_empty(Q))` loop of `build_htree`, with the variable `first` as
state. Each unit of fuel pays for one test of the loop condition. -/
def build_loop (P : pq_service) : Nat → P.Q → htree → Except fault htree
  | 0, _, _ => .error .out_of_fuel
  | fuel + 1, Q, first =>
    if P.pq_empty Q then .ok first
    else
      let r1 := P.pq_rem Q
      if !P.pq_empty r1.2 then
        let r2 := P.pq_rem r1.2
        let T := node 0 ((r1.1.freq + r2.1.freq) % UINT_MOD) r1.1 r2.1
        build_loop P fuel (P.pq_add r2.2 T) r1.1
      else build_loop P fuel r1.2 r1.1

/-- The function `build_htree`. The queue is created with capacity `NUM_SYMBOLS`, which
also bounds the number of iterations of the merging loop. -/
def build_htree (P : pq_service) (table : freqtable_t) : Except fault htree :=
  if count_nonzero table < 2 then .error .InsufficientSymbols
  else build_loop P (NUM_SYMBOLS + 1) (init_queue P table) NULL

/-! ## Task 3: decoding -/

/-- The two statements `if (code[i] == '1') cur = cur->right;
if (code[i] == '0') cur = cur->left;`. -/
def decode_move (c : bit_t) (cur : htree) : Except fault htree :=
  let step1 : Except fault htree :=
    if c = '1' then
      match cur with
      | NULL => .error .null_dereference
      | node _ _ _ r => .ok r
    else .ok cur
  match step1 with
  | .error e => .error e
  | .ok cur1 =>
    if c = '0' then
      match cur1 with
      | NULL => .error .null_dereference
      | node _ _ l _ => .ok l
    else .ok cur1

/-- The first loop of `decode_src`: the number of symbols in the result. -/
def decode_count (root : htree) : List bit_t → htree → Nat → Except fault Nat
  | [], _, count => .ok count
  | c :: code, cur, count =>
    match decode_move c cur with
    | .error e => .error e
    | .ok cur1 =>
      if is_htree_leaf cur1 then decode_count root code root (count + 1)
      else decode_count root code cur1 count

/-- The field read `now->value`. -/
def htree_value : htree → Except fault symbol_t
  | NULL => .error .null_dereference
  | node v _ _ _ => .ok v

/-- The second loop of `decode_src`: `res` holds the entries written so far, `str_i`
being its length. -/
def decode_fill (root : htree) : List bit_t → htree → List symbol_t → Except fault (List symbol_t)
  | [], _, res => .ok res
  | c :: code, now, res =>
    match decode_move c now with
    | .error e => .error e
    | .ok now1 =>
      if is_htree_leaf now1 then
        match htree_value now1 with
        | .error e => .error e
        | .ok v => decode_fill root code root (res ++ [v])
      else decode_fill root code now1 res

/-- The function `decode_src`: the decoded symbols together with the value stored in
`*src_len`. -/
def decode_src (H : htree) (code : List bit_t) : Except fault (List symbol_t × Nat) :=
  match decode_count H code H 0 with
  | .error e => .error e
  | .ok count =>
    match decode_fill H code H [] with
    | .error e => .error e
    | .ok res => .ok (res, count)

/-! ## Task 4: building code tables from Huffman trees -/

/-- The function `helper`. `B` is the string built so far, `len + 2` the size of the
buffers allocated for the two extensions of `B`; writing `B`, one more character and
the terminating NUL needs `B.length + 2` bytes. -/
def helper : htree → bitstring_t → codetable_t → Nat → Except fault codetable_t
  | NULL, _, _, _ => .error .null_dereference
  | node v f l r, B, T, len =>
    if is_htree_leaf (node v f l r) then .ok (Function.update T v (some B))
    else if len + 2 < B.length + 2 then .error .out_of_bounds
    else
      match helper l (B ++ ['0']) T (len + 2) with
      | .error e => .error e
      | .ok T1 => helper r (B ++ ['1']) T1 (len + 2)

/-- The function `htree_to_codetable`. -/
def htree_to_codetable (H : htree) : Except fault codetable_t :=
  helper H [] (fun _ => none) 0

/-! ## Task 5: encoding -/

/-- The first loop of `encode_src`: the total length of the codes. `strlen` of a null
entry (no code for the symbol) dereferences a null pointer. -/
def encode_len (table : codetable_t) : List symbol_t → Nat → Except fault Nat
  | [], bit_len => .ok bit_len
  | a :: src, bit_len =>
    match table a with
    | none => .error .null_dereference
    | some code => encode_len table src (bit_len + code.length)

/-- The second loop of `encode_src`: `strcpy(res + b_i, table[src[j]])` overwrites the
string `res` from offset `b_i` on. -/
def encode_fill (table : codetable_t) : List symbol_t → bitstring_t → Nat →
    Except fault bitstring_t
  | [], res, _ => .ok res
  | a :: src, res, b_i =>
    match table a with
    | none => .error .null_dereference
    | some code => encode_fill table src (res.take b_i ++ code) (b_i + code.length)

/-- The function `encode_src`, reading the first `src_len` symbols of `src`. -/
def encode_src (table : codetable_t) (src : List symbol_t) (src_len : Nat) :
    Except fault bitstring_t :=
  if src.length < src_len then .error .out_of_bounds
  else
    match encode_len table (src.take src_len) 0 with
    | .error e => .error e
    | .ok _ => encode_fill table (src.take src_len) [] 0

/-! ## Task 7: packing and unpacking -/

/-- The main loop of `pack`, at index `i`, with the byte under construction `now`
(a `uint8_t`) and the output array `res`. -/
def pack_loop : List bit_t → Nat → Nat → List Nat → List Nat × Nat
  | [], _, now, res => (res, now)
  | c :: bits, i, now, res =>
    let now1 := if c = '1' then ((now * 2) % 256 + 1) % 256 else now
    let now2 := if c = '0' then (now1 * 2) % 256 else now1
    if i ≠ 0 ∧ i % 8 = 7 then pack_loop bits (i + 1) 0 (res.set (i / 8) now2)
    else pack_loop bits (i + 1) now2 res

/-- The loop `for (j = 0; j < offset; j++) now = now << 1;` on a `uint8_t`. -/
def shift_left : Nat → Nat → Nat
  | 0, now => now
  | offset + 1, now => shift_left offset ((now * 2) % 256)

/-- The function `pack`. -/
def pack (bits : List bit_t) : List Nat :=
  let len := bits.length
  let bit_len := if len % 8 = 0 then len / 8 else len / 8 + 1
  let r := pack_loop bits 0 0 (List.replicate bit_len 0)
  if len % 8 ≠ 0 then r.1.set (len / 8) (shift_left (8 - len % 8) r.2) else r.1

/-- The inner loop of `unpack`, `j` running from 7 down to 0: the characters of one
byte, written from the right to the left. -/
def unpack_byte : Nat → Nat → List bit_t → List bit_t
  | 0, _, out => out
  | j + 1, now, out =>
    let a := now % 2
    unpack_byte j (now / 2) ((if a = 1 then '1' else '0') :: out)

/-- The outer loop of `unpack` over the first `len` bytes of `c`. -/
def unpack_loop : List Nat → Nat → Except fault (List bit_t)
  | _, 0 => .ok []
  | [], _ + 1 => .error .out_of_bounds
  | now :: c, len + 1 =>
    match unpack_loop c len with
    | .error e => .error e
    | .ok out => .ok (unpack_byte 8 now [] ++ out)

/-- The function `unpack`. -/
def unpack (c : List Nat) (len : Nat) : Except fault (List bit_t) :=
  unpack_loop c len

/-! ## Notions used to state the properties -/

/-- The leaves of a tree from left to right, each with the path that leads to it from
the root: `'0'` for a step to the left child, `'1'` for a step to the right child. -/
def leaf_paths : htree → List (symbol_t × bitstring_t)
  | NULL => []
  | node v f l r =>
    if is_htree_leaf (node v f l r) then [(v, [])]
    else (leaf_paths l).map (fun x => (x.1, '0' :: x.2))
      ++ (leaf_paths r).map (fun x => (x.1, '1' :: x.2))

/-- The table obtained from `T` by the assignments `T[v] = p`, for the pairs `(v, p)` of
a list, from the first pair to the last. -/
def store_codes (T : codetable_t) (L : List (symbol_t × bitstring_t)) : codetable_t :=
  L.foldl (fun T x => Function.update T x.1 (some x.2)) T

/-- The cursor of the first loop of `decode_src` right after the two conditional moves
of each iteration, in order; the list ends at the first move that does not return. -/
def decode_cursors (root : htree) : List bit_t → htree → List (Except fault htree)
  | [], _ => []
  | c :: code, cur =>
    match decode_move c cur with
    | .error e => [.error e]
    | .ok cur1 =>
      .ok cur1 ::
        (if is_htree_leaf cur1 then decode_cursors root code root
         else decode_cursors root code cur1)

/-- The code of a symbol in a code table, the empty string when there is no entry. -/
def code_of (T : codetable_t) (a : symbol_t) : bitstring_t :=
  (T a).getD []

/-- A string all of whose characters are `'0'` or `'1'`. -/
def is_bitstring (b : List bit_t) : Prop :=
  ∀ c ∈ b, c = '0' ∨ c = '1'

/-- The number written in binary by the characters of `b`, most significant bit first,
after the digits already read into `now`. -/
def bits_value (now : Nat) (b : List bit_t) : Nat :=
  b.foldl (fun n c => 2 * n + (if c = '1' then 1 else 0)) now

/-- The number of zero characters that complete a string of length `len` to a multiple
of 8. -/
def padding (len : Nat) : Nat :=
  (8 - len % 8) % 8

/-- The run of `pack` on the bits that follow `k` complete bytes: the main loop resumed
at index `8 * k` on the array `res`, then the treatment of the last, incomplete byte. -/
def pack_from (k : Nat) (bits : List bit_t) (res : List Nat) : List Nat :=
  let r := pack_loop bits (8 * k) 0 res
  if bits.length % 8 ≠ 0 then
    r.1.set (k + bits.length / 8) (shift_left (8 - bits.length % 8) r.2)
  else r.1

/-- The leaves of a tree from left to right, each as the pair of its symbol and its
frequency. -/
def leaves : htree → List (symbol_t × Nat)
  | NULL => []
  | node v f l r =>
    if is_htree_leaf (node v f l r) then [(v, f)] else leaves l ++ leaves r

/-- The leaf that `build_htree` allocates for symbol `a`. -/
def new_leaf (table : freqtable_t) (a : symbol_t) : htree :=
  node a (table a % UINT_MOD) NULL NULL

/-- The runs of the merging loop of `build_htree` on the queued elements `M`, whatever
the priority queue behind it: `merges_to M H` holds when repeatedly taking out an
element `a` of highest priority, then an element `b` of highest priority among the
others, and adding the node of children `a` and `b`, can end with `H` as the only
element left. -/
inductive merges_to : Multiset htree → htree → Prop
  | last (t : htree) : merges_to {t} t
  | step (M M2 : Multiset htree) (a b H : htree) :
      M = a ::ₘ b ::ₘ M2 →
      (∀ y ∈ M, htree_higher_priority y a = false) →
      (∀ y ∈ b ::ₘ M2, htree_higher_priority y b = false) →
      merges_to (node 0 ((a.freq + b.freq) % UINT_MOD) a b ::ₘ M2) H →
      merges_to M H

/-- The occurrence counts of a symbol sequence, as a frequency table. -/
def occurrences (s : List symbol_t) : freqtable_t :=
  fun a => s.count a

/-- The leaves of a tree from left to right, each as the pair of its frequency and its
depth, the root of the tree being at depth `d`. -/
def leaf_depths : Nat → htree → List (Nat × Nat)
  | _, NULL => []
  | d, node v f l r =>
    if is_htree_leaf (node v f l r) then [(f, d)]
    else leaf_depths (d + 1) l ++ leaf_depths (d + 1) r

/-- The weighted path length of a tree: the sum over its leaves of frequency times depth. -/
def weighted_path_length (H : htree) : Nat :=
  ((leaf_depths 0 H).map (fun x => x.1 * x.2)).sum

/-- The sum of the frequencies of the leaves of a tree, without wrap-around. -/
def weight (H : htree) : Nat :=
  ((leaves H).map Prod.snd).sum

/-- A binary tree with a symbol at each leaf and two subtrees at each other node: the
shape of a prefix-free code. -/
inductive code_tree where
  | leaf (a : symbol_t) : code_tree
  | node (l r : code_tree) : code_tree
  deriving DecidableEq, Repr

namespace code_tree

/-- The leaves of a code tree from left to right, each as the pair of its symbol and its
depth, the root of the tree being at depth `d`. -/
def depths_from : Nat → code_tree → List (symbol_t × Nat)
  | d, leaf a => [(a, d)]
  | d, node l r => depths_from (d + 1) l ++ depths_from (d + 1) r

/-- The symbols at the leaves of a code tree, from left to right. -/
def symbols (c : code_tree) : List symbol_t :=
  (depths_from 0 c).map Prod.fst

/-- The weighted path length of a code tree for a frequency table: the sum over its
leaves of the frequency of the symbol times the depth of the leaf. -/
def weighted_path_length (table : freqtable_t) (c : code_tree) : Nat :=
  ((depths_from 0 c).map (fun x => table x.1 * x.2)).sum

/-- The number of edges on the longest path from the root to a leaf. -/
def height : code_tree → Nat
  | leaf _ => 0
  | node l r => max (height l) (height r) + 1

/-- The depths of the leaves, as a multiset. -/
def depth_multiset (d : Nat) (c : code_tree) : Multiset Nat :=
  Multiset.ofList ((depths_from d c).map Prod.snd)

end code_tree

/-- The cost of an assignment of weights to depths, given as pairs `(weight, depth)`. -/
def pairs_cost (P : Multiset (Nat × Nat)) : Nat :=
  (P.map (fun x => x.1 * x.2)).sum

/-- The sum of the entries of a frequency table. -/
def table_sum (table : freqtable_t) : Nat :=
  ((List.finRange NUM_SYMBOLS).map table).sum

/-- The cursor of the first loop of `decode_src` when the loop ends. -/
def decode_cursor (root : htree) : List bit_t → htree → Except fault htree
  | [], cur => .ok cur
  | c :: code, cur =>
    match decode_move c cur with
    | .error e => .error e
    | .ok cur1 =>
      if is_htree_leaf cur1 then decode_cursor root code root
      else decode_cursor root code cur1

/-- The character that `unpack` writes for a bit. -/
def bit_char (b : Bool) : bit_t :=
  if b then '1' else '0'

/-- Bit `7 - i mod 8` of byte `i div 8` of a byte array: the bit at position `i`, the
most significant bit of each byte first. -/
def bit_at (c : List Nat) (i : Nat) : Bool :=
  (c.getD (i / 8) 0).testBit (7 - i % 8)

/-- The invariant of the spec, read with exact sums: every node is a leaf (no children,
positive frequency) or has two children and the sum of their frequencies as its
frequency. -/
def nodes_exact : htree → Bool
  | NULL => true
  | node _ f l r =>
    ((l.is_null && r.is_null && decide (0 < f))
        || (!l.is_null && !r.is_null && decide (f = l.freq + r.freq)))
      && nodes_exact l && nodes_exact r

/-- The invariant of the spec, read with sums in `unsigned int`: every node is a leaf
(no children, positive frequency) or has two children and the sum of their frequencies
modulo `2^32` as its frequency. -/
def nodes_modular : htree → Bool
  | NULL => true
  | node _ f l r =>
    ((l.is_null && r.is_null && decide (0 < f))
        || (!l.is_null && !r.is_null && decide (f = (l.freq + r.freq) % UINT_MOD)))
      && nodes_modular l && nodes_modular r

/-- The symbols of non-zero frequency, in increasing order. -/
def nonzero_symbols (table : freqtable_t) : List symbol_t :=
  (List.finRange NUM_SYMBOLS).filter (fun a => table a ≠ 0)

/-- A tree of two leaves that carry the same symbol. -/
def twin_tree : htree :=
  node 0 2 (node 5 1 NULL NULL) (node 5 1 NULL NULL)

/-- A tree that is a single leaf. -/
def leaf_tree : htree :=
  node 5 1 NULL NULL

/-- The tree of the frequencies `3` for symbol `65` and `4` for symbol `66`. -/
def tree_AB : htree :=
  node 0 7 (node 65 3 NULL NULL) (node 66 4 NULL NULL)

/-- The frequency table with `3` for symbol `65`, `4` for symbol `66`, `0` elsewhere. -/
def freq_AB : freqtable_t :=
  fun a => if a = 65 then 3 else if a = 66 then 4 else 0

/-- The frequency table with `2^31` for each of the symbols `0`, `1`, `2`, `3` and `0`
elsewhere: the sum of two entries wraps around to `0` in `unsigned int`. -/
def freq_wrap : freqtable_t :=
  fun a => if a.val < 4 then 2147483648 else 0

/-- The tree that `build_htree` returns for `freq_wrap` with the list priority queue. -/
def tree_wrap : htree :=
  node 0 0
    (node 0 2147483648
      (node 0 0 (node 3 2147483648 NULL NULL) (node 2 2147483648 NULL NULL))
      (node 1 2147483648 NULL NULL))
    (node 0 2147483648 NULL NULL)

/-- The code tree with the symbols `0`, `1`, `2`, `3` all at depth 2. -/
def balanced_code : code_tree :=
  .node (.node (.leaf 0) (.leaf 1)) (.node (.leaf 2) (.leaf 3))

/-- A code tree for the symbols `65` and `66`. -/
def code_AB : code_tree :=
  .node (.leaf 66) (.leaf 65)

/-- The two leaves of frequency `2^31` under a node of frequency `0`, their sum in
`unsigned int`. -/
def node_wrap : htree :=
  node 0 0 (node 3 2147483648 NULL NULL) (node 2 2147483648 NULL NULL)

/-- A tree with three leaves, for the symbols `65`, `66` and `67`. -/
def tree_ABC : htree :=
  node 0 3 (node 65 1 NULL NULL) (node 0 2 (node 66 1 NULL NULL) (node 67 1 NULL NULL))

/-- The frequency table with `3` for symbol `65`, `5` for symbol `66`, `0` elsewhere. -/
def freq_35 : freqtable_t :=
  fun a => if a = 65 then 3 else if a = 66 then 5 else 0

/-- The code table of `tree_AB`. -/
def table_AB : codetable_t :=
  fun a => if a = 65 then some ['0'] else if a = 66 then some ['1'] else none

/-! # Properties -/

/-! ## The invariant checker -/

theorem is_htree_unfold (H : htree) :
    is_htree H =
      (if H.is_null || (!is_htree_interior H && !is_htree_leaf H) then false else true) := by
  cases H with
  | NULL => rfl
  | node v own l r => simp only [is_htree, is_htree_interior, htree.is_null, Bool.false_or]

theorem is_htree_leaf_iff (v : symbol_t) (f : Nat) (l r : htree) :
    is_htree_leaf (node v f l r) = true ↔ f ≠ 0 ∧ l = NULL ∧ r = NULL := by
  cases l <;> cases r <;> simp [is_htree_leaf, htree.is_null]

theorem is_htree_node_cases {v : symbol_t} {f : Nat} {l r : htree}
    (h : is_htree (node v f l r) = true) :
    (is_htree_leaf (node v f l r) = true ∧ f ≠ 0 ∧ l = NULL ∧ r = NULL) ∨
    (is_htree_leaf (node v f l r) = false ∧ is_htree l = true ∧ is_htree r = true ∧
      f = (l.freq + r.freq) % UINT_MOD) := by
  by_cases hl : is_htree_leaf (node v f l r) = true
  · exact Or.inl ⟨hl, (is_htree_leaf_iff v f l r).mp hl⟩
  · right
    simp only [Bool.not_eq_true] at hl
    simp only [is_htree, hl] at h
    cases l <;> cases r <;> simp_all [htree.is_null]

theorem is_htree_ne_null {H : htree} (h : is_htree H = true) : H ≠ NULL := by
  intro h0
  rw [h0] at h
  simp [is_htree] at h

theorem is_htree_leaf_of_leaf (v : symbol_t) (f : Nat) (hf : f ≠ 0) :
    is_htree (node v f NULL NULL) = true := by
  simp [is_htree, is_htree_leaf, htree.is_null, hf]

theorem is_null_eq_false_of_is_htree {H : htree} (h : is_htree H = true) :
    H.is_null = false := by
  cases H with
  | NULL => simp [is_htree] at h
  | node v f l r => rfl

theorem is_htree_merge {a b : htree} (v : symbol_t) (ha : is_htree a = true)
    (hb : is_htree b = true) :
    is_htree (node v ((a.freq + b.freq) % UINT_MOD) a b) = true := by
  rw [is_htree]
  simp [ha, hb, is_null_eq_false_of_is_htree ha, is_null_eq_false_of_is_htree hb]

/-! ## The code table -/

theorem store_codes_append (T : codetable_t) (L1 L2 : List (symbol_t × bitstring_t)) :
    store_codes T (L1 ++ L2) = store_codes (store_codes T L1) L2 := by
  simp [store_codes, List.foldl_append]

theorem store_codes_cons (T : codetable_t) (x : symbol_t × bitstring_t)
    (L : List (symbol_t × bitstring_t)) :
    store_codes T (x :: L) = store_codes (Function.update T x.1 (some x.2)) L := rfl

theorem store_codes_of_not_mem (L : List (symbol_t × bitstring_t)) :
    ∀ (T : codetable_t) (a : symbol_t), a ∉ L.map Prod.fst → store_codes T L a = T a := by
  induction L with
  | nil => intro T a _; rfl
  | cons x L ih =>
    intro T a ha
    simp only [List.map_cons, List.mem_cons, not_or] at ha
    rw [store_codes_cons, ih _ a ha.2, Function.update_noteq ha.1]

theorem store_codes_some (L : List (symbol_t × bitstring_t)) :
    ∀ (T : codetable_t) (a : symbol_t) (c : bitstring_t),
      store_codes T L a = some c → T a = some c ∨ (a, c) ∈ L := by
  induction L with
  | nil => intro T a c h; exact Or.inl h
  | cons x L ih =>
    intro T a c h
    rw [store_codes_cons] at h
    rcases ih _ a c h with h1 | h1
    · by_cases hax : a = x.1
      · subst hax
        rw [Function.update_same] at h1
        right
        have : x.2 = c := Option.some.inj h1
        rw [← this]
        exact List.mem_cons_self _ _
      · rw [Function.update_noteq hax] at h1
        exact Or.inl h1
    · exact Or.inr (List.mem_cons_of_mem _ h1)

theorem store_codes_of_nodup (L : List (symbol_t × bitstring_t)) :
    ∀ (T : codetable_t), (L.map Prod.fst).Nodup → ∀ a c, (a, c) ∈ L →
      store_codes T L a = some c := by
  induction L with
  | nil => intro T _ a c h; simp at h
  | cons x L ih =>
    intro T hnd a c h
    simp only [List.map_cons, List.nodup_cons] at hnd
    rw [store_codes_cons]
    rcases List.mem_cons.mp h with h1 | h1
    · subst h1
      rw [store_codes_of_not_mem L _ _ hnd.1, Function.update_same]
    · exact ih _ hnd.2 a c h1

theorem helper_eq (H : htree) : is_htree H = true → ∀ (B : bitstring_t) (T : codetable_t)
    (len : Nat), B.length ≤ len →
    helper H B T len
      = .ok (store_codes T ((leaf_paths H).map (fun x => (x.1, B ++ x.2)))) := by
  induction H with
  | NULL => intro h; simp [is_htree] at h
  | node v f l r ihl ihr =>
    intro h B T len hlen
    rcases is_htree_node_cases h with ⟨hleaf, _, _, _⟩ | ⟨hleaf, hl, hr, _⟩
    · simp [helper, leaf_paths, hleaf, store_codes]
    · have hb : ¬ (len + 2 < B.length + 2) := by omega
      have h0 : (B ++ ['0']).length ≤ len + 2 := by simp; omega
      have h1 : (B ++ ['1']).length ≤ len + 2 := by simp; omega
      simp only [helper, hleaf, Bool.false_eq_true, if_false, hb, leaf_paths,
        ihl hl _ T _ h0, List.map_append, List.map_map, store_codes_append]
      rw [ihr hr _ _ _ h1]
      simp [Function.comp_def]

theorem htree_to_codetable_eq {H : htree} (h : is_htree H = true) :
    htree_to_codetable H = .ok (store_codes (fun _ => none) (leaf_paths H)) := by
  rw [htree_to_codetable, helper_eq H h [] _ 0 (Nat.le_refl _)]
  simp

theorem leaf_paths_pairwise (H : htree) :
    (leaf_paths H).Pairwise (fun x y => ¬ x.2 <+: y.2 ∧ ¬ y.2 <+: x.2) := by
  induction H with
  | NULL => simp [leaf_paths]
  | node v f l r ihl ihr =>
    simp only [leaf_paths]
    split
    · simp
    · rw [List.pairwise_append]
      refine ⟨?_, ?_, ?_⟩
      · rw [List.pairwise_map]
        refine ihl.imp ?_
        intro x y hxy
        simpa [List.cons_prefix_cons] using hxy
      · rw [List.pairwise_map]
        refine ihr.imp ?_
        intro x y hxy
        simpa [List.cons_prefix_cons] using hxy
      · intro a ha b hb
        simp only [List.mem_map] at ha hb
        obtain ⟨x, _, rfl⟩ := ha
        obtain ⟨y, _, rfl⟩ := hb
        simp [List.cons_prefix_cons]

/-- C4. Prefix-free codes: for a tree `H` satisfying `is_htree`, the code table
`htree_to_codetable(H)` is produced, and for any two distinct symbols that both have an
entry in it, neither code is an initial segment of the other. -/
theorem C4_codetable_codes_are_not_initial_segments (H : htree) (h : is_htree H = true) :
    ∃ T, htree_to_codetable H = .ok T ∧
      ∀ (a b : symbol_t) (ca cb : bitstring_t), a ≠ b → T a = some ca → T b = some cb →
        ¬ ca <+: cb ∧ ¬ cb <+: ca := by
  refine ⟨_, htree_to_codetable_eq h, ?_⟩
  intro a b ca cb hab ha hb
  have ha1 : (a, ca) ∈ leaf_paths H := by
    rcases store_codes_some _ _ a ca ha with h1 | h1
    · cases h1
    · exact h1
  have hb1 : (b, cb) ∈ leaf_paths H := by
    rcases store_codes_some _ _ b cb hb with h1 | h1
    · cases h1
    · exact h1
  have hsym : Symmetric (fun x y : symbol_t × bitstring_t => ¬ x.2 <+: y.2 ∧ ¬ y.2 <+: x.2) :=
    fun x y hxy => ⟨hxy.2, hxy.1⟩
  have hne : (a, ca) ≠ (b, cb) := fun heq => hab (congrArg Prod.fst heq)
  exact (leaf_paths_pairwise H).forall hsym ha1 hb1 hne

theorem C4_witness :
    is_htree tree_AB = true ∧
    ∃ T, htree_to_codetable tree_AB = .ok T ∧
      ∀ (a b : symbol_t) (ca cb : bitstring_t), a ≠ b → T a = some ca → T b = some cb →
        ¬ ca <+: cb ∧ ¬ cb <+: ca :=
  ⟨by decide, C4_codetable_codes_are_not_initial_segments tree_AB (by decide)⟩

/-- C8 (as stated, refuted). In `twin_tree`, a tree satisfying `is_htree`, the left leaf
carries symbol 5 and is reached by the path `"0"`, yet the code table does not map
symbol 5 to `"0"`: the entry was overwritten by the right leaf, which carries symbol 5
too. -/
theorem C8_counterexample_twin_leaves :
    is_htree twin_tree = true ∧ ((5 : symbol_t), ['0']) ∈ leaf_paths twin_tree ∧
    ¬ ∃ T, htree_to_codetable twin_tree = .ok T ∧ T 5 = some ['0'] := by
  refine ⟨by decide, by decide, ?_⟩
  rintro ⟨T, hT, h5⟩
  rw [htree_to_codetable_eq (by decide)] at hT
  have hT2 := Except.ok.inj hT
  rw [← hT2] at h5
  revert h5
  decide

/-- C8 (amended). Code-table derivation: for a tree `H` satisfying `is_htree` whose
leaves carry pairwise distinct symbols, and every leaf of `H`, with symbol `v` and path
`p` from the root (`'0'` for each step to a left child, `'1'` for each step to a right
child), `htree_to_codetable(H)` is produced and maps `v` to `p`. -/
theorem C8_codetable_maps_leaf_to_path (H : htree) (h : is_htree H = true)
    (hd : ((leaf_paths H).map Prod.fst).Nodup) (v : symbol_t) (p : bitstring_t)
    (hv : (v, p) ∈ leaf_paths H) :
    ∃ T, htree_to_codetable H = .ok T ∧ T v = some p :=
  ⟨_, htree_to_codetable_eq h, store_codes_of_nodup _ _ hd v p hv⟩

theorem C8_witness :
    is_htree tree_AB = true ∧ ((leaf_paths tree_AB).map Prod.fst).Nodup ∧
    ((66 : symbol_t), ['1']) ∈ leaf_paths tree_AB ∧
    ∃ T, htree_to_codetable tree_AB = .ok T ∧ T 66 = some ['1'] :=
  ⟨by decide, by decide, by decide,
    C8_codetable_maps_leaf_to_path tree_AB (by decide) (by decide) 66 ['1'] (by decide)⟩


/-! ## The encoder -/

theorem encode_len_eq (T : codetable_t) (s : List symbol_t) :
    (∀ a ∈ s, T a ≠ none) → ∀ n,
      encode_len T s n = .ok (n + (s.map (fun a => (code_of T a).length)).sum) := by
  induction s with
  | nil => intro _ n; simp [encode_len]
  | cons a s ih =>
    intro h n
    have ha : T a ≠ none := h a (List.mem_cons_self _ _)
    obtain ⟨c, hc⟩ := Option.ne_none_iff_exists'.mp ha
    simp only [encode_len, hc]
    rw [ih (fun b hb => h b (List.mem_cons_of_mem _ hb))]
    simp [code_of, hc, Nat.add_assoc]

theorem encode_fill_eq (T : codetable_t) (s : List symbol_t) :
    (∀ a ∈ s, T a ≠ none) → ∀ (res : bitstring_t) (b_i : Nat), b_i = res.length →
      encode_fill T s res b_i = .ok (res ++ s.flatMap (code_of T)) := by
  induction s with
  | nil => intro _ res b_i _; simp [encode_fill]
  | cons a s ih =>
    intro h res b_i hb
    have ha : T a ≠ none := h a (List.mem_cons_self _ _)
    obtain ⟨c, hc⟩ := Option.ne_none_iff_exists'.mp ha
    simp only [encode_fill, hc]
    subst hb
    rw [ih (fun b hb => h b (List.mem_cons_of_mem _ hb)) _ _ (by simp)]
    simp [code_of, hc]

theorem encode_src_eq (T : codetable_t) (s : List symbol_t) (h : ∀ a ∈ s, T a ≠ none) :
    encode_src T s s.length = .ok (s.flatMap (code_of T)) := by
  simp only [encode_src, Nat.lt_irrefl, if_false, List.take_length, encode_len_eq T s h 0]
  rw [encode_fill_eq T s h [] 0 rfl]
  simp

/-- C10. Encoder output: for a code table `T` and a symbol sequence `s` all of whose
symbols have an entry in `T`, `encode_src(T, s, |s|)` returns the concatenation, in
input order, of the codes `T[s[0]], T[s[1]], ...`, and the length of that bit-string is
the sum of the lengths of those codes. -/
theorem C10_encode_is_concatenation_of_codes (T : codetable_t) (s : List symbol_t)
    (h : ∀ a ∈ s, T a ≠ none) :
    encode_src T s s.length = .ok (s.flatMap (code_of T)) ∧
    (s.flatMap (code_of T)).length = (s.map (fun a => (code_of T a).length)).sum := by
  refine ⟨encode_src_eq T s h, ?_⟩
  induction s with
  | nil => rfl
  | cons a s ih =>
    simp only [List.flatMap_cons, List.length_append, List.map_cons, List.sum_cons]
    rw [ih (fun b hb => h b (List.mem_cons_of_mem _ hb))]

set_option maxRecDepth 8000 in
theorem C10_witness :
    (∀ a ∈ [(65 : symbol_t), 66, 66], table_AB a ≠ none) ∧
    encode_src table_AB [65, 66, 66] [(65 : symbol_t), 66, 66].length
      = .ok ([(65 : symbol_t), 66, 66].flatMap (code_of table_AB)) ∧
    ([(65 : symbol_t), 66, 66].flatMap (code_of table_AB)).length
      = ([(65 : symbol_t), 66, 66].map (fun a => (code_of table_AB a).length)).sum :=
  ⟨by decide, C10_encode_is_concatenation_of_codes table_AB [65, 66, 66] (by decide)⟩

/-- C10, the empty sequence: it encodes to the empty bit-string. -/
theorem encode_src_nil (T : codetable_t) : encode_src T [] 0 = .ok [] := by
  simp [encode_src, encode_len, encode_fill]

/-! ## The decoder -/

theorem decode_move_zero (v : symbol_t) (f : Nat) (l r : htree) :
    decode_move '0' (node v f l r) = .ok l := by
  simp [decode_move]

theorem decode_move_one (v : symbol_t) (f : Nat) (l r : htree) :
    decode_move '1' (node v f l r) = .ok r := by
  simp [decode_move]

theorem decode_move_interior (c : bit_t) {cur : htree} (h : is_htree cur = true)
    (hl : is_htree_leaf cur = false) :
    ∃ cur1, decode_move c cur = .ok cur1 ∧ is_htree cur1 = true := by
  cases cur with
  | NULL => simp [is_htree] at h
  | node v f l r =>
    rcases is_htree_node_cases h with ⟨h1, _⟩ | ⟨_, h2, h3, _⟩
    · rw [hl] at h1; cases h1
    · by_cases c1 : c = '1'
      · subst c1
        exact ⟨r, decode_move_one v f l r, h3⟩
      · by_cases c0 : c = '0'
        · subst c0
          exact ⟨l, decode_move_zero v f l r, h2⟩
        · exact ⟨node v f l r, by simp [decode_move, c1, c0], h⟩

theorem decode_cursors_real (root : htree) (hroot : is_htree root = true)
    (hrl : is_htree_leaf root = false) (code : List bit_t) :
    ∀ cur, is_htree cur = true → is_htree_leaf cur = false →
      ∀ x ∈ decode_cursors root code cur, ∃ n, x = .ok n ∧ n.is_null = false := by
  induction code with
  | nil => intro cur _ _ x hx; simp [decode_cursors] at hx
  | cons c code ih =>
    intro cur hc hcl x hx
    obtain ⟨cur1, hm, hv⟩ := decode_move_interior c hc hcl
    simp only [decode_cursors, hm, List.mem_cons] at hx
    rcases hx with rfl | hx
    · exact ⟨cur1, rfl, is_null_eq_false_of_is_htree hv⟩
    · by_cases h1 : is_htree_leaf cur1 = true
      · rw [if_pos h1] at hx
        exact ih root hroot hrl x hx
      · rw [if_neg h1] at hx
        exact ih cur1 hv (by simpa using h1) x hx

theorem decode_count_returns (root : htree) (hroot : is_htree root = true)
    (hrl : is_htree_leaf root = false) (code : List bit_t) :
    ∀ cur count, is_htree cur = true → is_htree_leaf cur = false →
      ∃ n, decode_count root code cur count = .ok n := by
  induction code with
  | nil => intro cur count _ _; exact ⟨count, rfl⟩
  | cons c code ih =>
    intro cur count hc hcl
    obtain ⟨cur1, hm, hv⟩ := decode_move_interior c hc hcl
    simp only [decode_count, hm]
    by_cases h1 : is_htree_leaf cur1 = true
    · rw [if_pos h1]
      exact ih root _ hroot hrl
    · rw [if_neg h1]
      exact ih cur1 _ hv (by simpa using h1)

theorem htree_value_of_is_htree {H : htree} (h : is_htree H = true) :
    ∃ v, htree_value H = .ok v := by
  cases H with
  | NULL => simp [is_htree] at h
  | node v f l r => exact ⟨v, rfl⟩

theorem decode_fill_returns (root : htree) (hroot : is_htree root = true)
    (hrl : is_htree_leaf root = false) (code : List bit_t) :
    ∀ cur res, is_htree cur = true → is_htree_leaf cur = false →
      ∃ out, decode_fill root code cur res = .ok out := by
  induction code with
  | nil => intro cur res _ _; exact ⟨res, rfl⟩
  | cons c code ih =>
    intro cur res hc hcl
    obtain ⟨cur1, hm, hv⟩ := decode_move_interior c hc hcl
    simp only [decode_fill, hm]
    by_cases h1 : is_htree_leaf cur1 = true
    · rw [if_pos h1]
      obtain ⟨v, hv1⟩ := htree_value_of_is_htree hv
      simp only [hv1]
      exact ih root _ hroot hrl
    · rw [if_neg h1]
      exact ih cur1 _ hv (by simpa using h1)

theorem decode_src_returns (H : htree) (h : is_htree H = true)
    (hl : is_htree_leaf H = false) (code : List bit_t) :
    ∃ r, decode_src H code = .ok r := by
  obtain ⟨n, hn⟩ := decode_count_returns H h hl code H 0 h hl
  obtain ⟨out, hout⟩ := decode_fill_returns H h hl code H [] h hl
  exact ⟨(out, n), by simp [decode_src, hn, hout]⟩

/-- C9 (as stated, refuted). `leaf_tree` satisfies `is_htree`, but on the bit-string
`"0"` the decoder follows the left link of this childless node: the cursor is `NULL`
after the first step, and on `"00"` the second step dereferences it. -/
theorem C9_counterexample_single_leaf :
    is_htree leaf_tree = true ∧
    decode_cursors leaf_tree ['0'] leaf_tree = [.ok NULL] ∧
    decode_src leaf_tree ['0', '0'] = .error .null_dereference := by
  decide

/-- C9 (amended). For a tree `H` satisfying `is_htree` whose root is not a leaf, and
every string `code`, the cursor of `decode_src` is a real node (not `NULL`) after each
step, so no child link of a childless node is ever followed, and `decode_src` returns a
result. -/
theorem C9_decoder_cursor_is_a_real_node (H : htree) (h : is_htree H = true)
    (hl : is_htree_leaf H = false) (code : List bit_t) :
    (∀ x ∈ decode_cursors H code H, ∃ n, x = .ok n ∧ n.is_null = false) ∧
    ∃ r, decode_src H code = .ok r :=
  ⟨decode_cursors_real H h hl code H h hl, decode_src_returns H h hl code⟩

theorem C9_witness :
    is_htree tree_AB = true ∧ is_htree_leaf tree_AB = false ∧
    (∀ x ∈ decode_cursors tree_AB ['0', '1', '1'] tree_AB,
        ∃ n, x = .ok n ∧ n.is_null = false) ∧
    ∃ r, decode_src tree_AB ['0', '1', '1'] = .ok r :=
  ⟨by decide, by decide,
    C9_decoder_cursor_is_a_real_node tree_AB (by decide) (by decide) ['0', '1', '1']⟩

/-! ## Packing and unpacking -/

theorem bits_value_cons (now : Nat) (c : bit_t) (b : List bit_t) :
    bits_value now (c :: b) = bits_value (2 * now + (if c = '1' then 1 else 0)) b := rfl

theorem bits_value_append (now : Nat) (b1 b2 : List bit_t) :
    bits_value now (b1 ++ b2) = bits_value (bits_value now b1) b2 := by
  simp [bits_value, List.foldl_append]

theorem bits_value_lt (b : List bit_t) :
    ∀ (now m : Nat), now < 2 ^ m → bits_value now b < 2 ^ (m + b.length) := by
  induction b with
  | nil => intro now m h; simpa [bits_value] using h
  | cons c b ih =>
    intro now m h
    rw [bits_value_cons]
    have h2 : 2 * now + (if c = '1' then 1 else 0) < 2 ^ (m + 1) := by
      rw [pow_succ]
      split <;> omega
    have := ih _ (m + 1) h2
    simpa [Nat.add_assoc, Nat.add_comm 1] using this

theorem is_bitstring_cons {c : bit_t} {b : List bit_t} (h : is_bitstring (c :: b)) :
    (c = '0' ∨ c = '1') ∧ is_bitstring b :=
  ⟨h c (List.mem_cons_self _ _), fun x hx => h x (List.mem_cons_of_mem _ hx)⟩

theorem is_bitstring_append {b1 b2 : List bit_t} :
    is_bitstring (b1 ++ b2) ↔ is_bitstring b1 ∧ is_bitstring b2 := by
  simp only [is_bitstring, List.mem_append]
  constructor
  · intro h
    exact ⟨fun c hc => h c (Or.inl hc), fun c hc => h c (Or.inr hc)⟩
  · rintro ⟨h1, h2⟩ c (hc | hc)
    · exact h1 c hc
    · exact h2 c hc

theorem is_bitstring_replicate (n : Nat) : is_bitstring (List.replicate n '0') := by
  intro c hc
  exact Or.inl (List.eq_of_mem_replicate hc)

theorem pack_loop_step (c : bit_t) (bits : List bit_t) (i now : Nat) (res : List Nat)
    (hc : c = '0' ∨ c = '1') (hnow : now < 128) :
    pack_loop (c :: bits) i now res =
      if i % 8 = 7 then
        pack_loop bits (i + 1) 0 (res.set (i / 8) (2 * now + (if c = '1' then 1 else 0)))
      else pack_loop bits (i + 1) (2 * now + (if c = '1' then 1 else 0)) res := by
  have hi : (i ≠ 0 ∧ i % 8 = 7) ↔ i % 8 = 7 := by
    constructor
    · exact fun h => h.2
    · exact fun h => ⟨by omega, h⟩
  rcases hc with rfl | rfl
  · have e : (now * 2) % 256 = 2 * now := by omega
    simp [pack_loop, hi, e]
  · have e : ((now * 2) % 256 + 1) % 256 = 2 * now + 1 := by omega
    simp [pack_loop, hi, e]

theorem pack_loop_tail (bits : List bit_t) :
    ∀ (i now : Nat) (res : List Nat), is_bitstring bits → i % 8 + bits.length < 8 →
      now < 2 ^ (i % 8) → pack_loop bits i now res = (res, bits_value now bits) := by
  induction bits with
  | nil => intro i now res _ _ _; rfl
  | cons c bits ih =>
    intro i now res hb hlen hnow
    obtain ⟨hc, hb2⟩ := is_bitstring_cons hb
    simp only [List.length_cons] at hlen
    have h7 : i % 8 ≠ 7 := by omega
    have hpow : 2 ^ (i % 8) ≤ 2 ^ 6 := Nat.pow_le_pow_right (by norm_num) (by omega)
    have hn : now < 128 := by omega
    rw [pack_loop_step c bits i now res hc hn, if_neg h7, bits_value_cons]
    have hmod : (i + 1) % 8 = i % 8 + 1 := by omega
    apply ih _ _ _ hb2
    · omega
    · rw [hmod, pow_succ]
      split <;> omega

theorem pack_loop_chunk (bits : List bit_t) :
    ∀ (rest : List bit_t) (i now : Nat) (res : List Nat), is_bitstring bits →
      i % 8 + bits.length = 8 → now < 2 ^ (i % 8) →
      pack_loop (bits ++ rest) i now res =
        pack_loop rest (i + bits.length) 0 (res.set (i / 8) (bits_value now bits)) := by
  induction bits with
  | nil => intro rest i now res _ hlen _; simp at hlen; omega
  | cons c bits ih =>
    intro rest i now res hb hlen hnow
    obtain ⟨hc, hb2⟩ := is_bitstring_cons hb
    simp only [List.length_cons] at hlen
    have hpow : 2 ^ (i % 8) ≤ 2 ^ 7 := Nat.pow_le_pow_right (by norm_num) (by omega)
    have hn : now < 128 := by omega
    rw [List.cons_append, pack_loop_step c _ i now res hc hn, bits_value_cons]
    by_cases h7 : i % 8 = 7
    · have hnil : bits = [] := List.length_eq_zero.mp (by omega)
      subst hnil
      rw [if_pos h7]
      simp [bits_value]
    · rw [if_neg h7]
      have hmod : (i + 1) % 8 = i % 8 + 1 := by omega
      have hdiv : (i + 1) / 8 = i / 8 := by omega
      rw [ih rest (i + 1) _ res hb2 (by omega) (by rw [hmod, pow_succ]; split <;> omega), hdiv]
      simp only [List.length_cons]
      congr 1
      omega

theorem shift_left_eq (n : Nat) :
    ∀ (now m : Nat), now < 2 ^ m → m + n ≤ 8 →
      shift_left n now = bits_value now (List.replicate n '0') := by
  induction n with
  | zero => intro now m _ _; rfl
  | succ n ih =>
    intro now m hnow hm
    have hpow : 2 ^ (m + 1) ≤ 2 ^ 8 := Nat.pow_le_pow_right (by norm_num) (by omega)
    have h2 : now * 2 < 2 ^ (m + 1) := by rw [pow_succ]; omega
    have e : (now * 2) % 256 = 2 * now + 0 := by omega
    simp only [shift_left, List.replicate_succ, bits_value_cons, e]
    have := ih (2 * now + 0) (m + 1) (by omega) (by omega)
    simpa using this

theorem bits_value_snoc (now : Nat) (b : List bit_t) (c : bit_t) :
    bits_value now (b ++ [c]) = 2 * bits_value now b + (if c = '1' then 1 else 0) := by
  rw [bits_value_append]
  rfl

theorem unpack_byte_bits_value (b : List bit_t) :
    is_bitstring b → ∀ out, unpack_byte b.length (bits_value 0 b) out = b ++ out := by
  induction b using List.reverseRecOn with
  | nil => intro _ out; rfl
  | append_singleton b c ih =>
    intro hb out
    obtain ⟨hb1, hc⟩ := is_bitstring_append.mp hb
    have hc1 : c = '0' ∨ c = '1' := hc c (List.mem_singleton_self c)
    rw [bits_value_snoc, List.length_append, List.length_singleton]
    simp only [unpack_byte]
    rcases hc1 with rfl | rfl
    · have e1 : (2 * bits_value 0 b + (if '0' = '1' then 1 else 0)) % 2 = 0 := by
        simp
      have e2 : (2 * bits_value 0 b + (if '0' = '1' then 1 else 0)) / 2 = bits_value 0 b := by
        simp
      rw [e1, e2, ih hb1]
      simp
    · have e1 : (2 * bits_value 0 b + (if '1' = '1' then 1 else 0)) % 2 = 1 := by
        simp; omega
      have e2 : (2 * bits_value 0 b + (if '1' = '1' then 1 else 0)) / 2 = bits_value 0 b := by
        simp; omega
      rw [e1, e2, ih hb1]
      simp

theorem pack_eq_pack_from (bits : List bit_t) :
    pack bits = pack_from 0 bits (List.replicate ((bits.length + 7) / 8) 0) := by
  have e : (if bits.length % 8 = 0 then bits.length / 8 else bits.length / 8 + 1)
      = (bits.length + 7) / 8 := by
    split <;> omega
  simp only [pack, pack_from, e, Nat.mul_zero, Nat.zero_add]

theorem pack_from_chunk (k : Nat) (chunk rest : List bit_t) (res : List Nat)
    (hc : is_bitstring chunk) (hlen : chunk.length = 8) :
    pack_from k (chunk ++ rest) res
      = pack_from (k + 1) rest (res.set k (bits_value 0 chunk)) := by
  have h1 := pack_loop_chunk chunk rest (8 * k) 0 res hc (by omega) (by simp)
  have e1 : 8 * k + chunk.length = 8 * (k + 1) := by omega
  have e2 : 8 * k / 8 = k := by omega
  rw [e1, e2] at h1
  have e3 : (chunk ++ rest).length % 8 = rest.length % 8 := by
    rw [List.length_append, hlen]; omega
  have e4 : k + (chunk ++ rest).length / 8 = k + 1 + rest.length / 8 := by
    rw [List.length_append, hlen]; omega
  simp only [pack_from, h1, e3, e4]

theorem set_last_eq_take_append (res : List Nat) (k v : Nat) (h : res.length = k + 1) :
    res.set k v = res.take k ++ [v] := by
  apply List.ext_getElem
  · simp [h]
  · intro i h1 h2
    simp only [List.length_set] at h1
    by_cases hik : i = k
    · subst hik
      rw [List.getElem_set_self, List.getElem_append_right (by simp)]
      simp
    · rw [List.getElem_set_ne (fun e => hik e.symm),
        List.getElem_append_left (by simp; omega), List.getElem_take]

theorem take_succ_set (res : List Nat) (k v : Nat) (h : k < res.length) :
    (res.set k v).take (k + 1) = res.take k ++ [v] := by
  apply List.ext_getElem
  · simp; omega
  · intro i h1 h2
    simp only [List.length_take, List.length_set] at h1
    by_cases hik : i = k
    · subst hik
      rw [List.getElem_take, List.getElem_set_self, List.getElem_append_right (by simp)]
      simp
    · rw [List.getElem_take, List.getElem_set_ne (fun e => hik e.symm),
        List.getElem_append_left (by simp; omega), List.getElem_take]

theorem pack_from_spec (n : Nat) :
    ∀ (bits : List bit_t), bits.length ≤ n → is_bitstring bits →
      ∀ (k : Nat) (res : List Nat), res.length = k + (bits.length + 7) / 8 →
      ∃ bytes, pack_from k bits res = res.take k ++ bytes ∧
        bytes.length = (bits.length + 7) / 8 ∧ (∀ x ∈ bytes, x < 256) ∧
        unpack_loop bytes bytes.length
          = .ok (bits ++ List.replicate (padding bits.length) '0') := by
  induction n using Nat.strong_induction_on with
  | _ n ih =>
    intro bits hn hb k res hres
    by_cases h8 : bits.length < 8
    · by_cases h0 : bits.length = 0
      · have hnil : bits = [] := List.length_eq_zero.mp h0
        subst hnil
        refine ⟨[], ?_, rfl, by simp, ?_⟩
        · simp only [List.length_nil] at hres
          simp [pack_from, pack_loop, hres]
        · simp [unpack_loop, padding]
      · have ht := pack_loop_tail bits (8 * k) 0 res hb (by omega) (by simp)
        have hmod : bits.length % 8 = bits.length := Nat.mod_eq_of_lt h8
        have hdiv : bits.length / 8 = 0 := Nat.div_eq_of_lt h8
        have hsh := shift_left_eq (8 - bits.length) (bits_value 0 bits) bits.length
          (by simpa using bits_value_lt bits 0 0 (by norm_num)) (by omega)
        rw [← bits_value_append] at hsh
        have hpadb : is_bitstring (bits ++ List.replicate (8 - bits.length) '0') :=
          is_bitstring_append.mpr ⟨hb, is_bitstring_replicate _⟩
        have hpadlen : (bits ++ List.replicate (8 - bits.length) '0').length = 8 := by
          simp; omega
        have hlt := bits_value_lt (bits ++ List.replicate (8 - bits.length) '0') 0 0
          (by norm_num)
        rw [hpadlen] at hlt
        have hun := unpack_byte_bits_value _ hpadb []
        rw [hpadlen] at hun
        have hres1 : res.length = k + 1 := by rw [hres]; omega
        refine ⟨[bits_value 0 (bits ++ List.replicate (8 - bits.length) '0')], ?_, ?_, ?_, ?_⟩
        · simp only [pack_from, ht, hmod, hdiv, hsh, Nat.add_zero]
          rw [if_pos h0]
          exact set_last_eq_take_append res k _ hres1
        · simp; omega
        · intro x hx
          rw [List.mem_singleton.mp hx]
          simpa using hlt
        · simp only [List.length_singleton, unpack_loop, hun]
          simp [padding, hmod, Nat.mod_eq_of_lt (show 8 - bits.length < 8 by omega)]
    · have hsplit : bits = bits.take 8 ++ bits.drop 8 := (List.take_append_drop 8 bits).symm
      have htl : (bits.take 8).length = 8 := by simp; omega
      have hdl : (bits.drop 8).length = bits.length - 8 := by simp
      have hb' := hb
      rw [hsplit] at hb'
      obtain ⟨hb1, hb2⟩ := is_bitstring_append.mp hb'
      have hk : k < res.length := by omega
      obtain ⟨bytes, h1, h2, h3, h4⟩ :=
        ih (bits.length - 8) (by omega) (bits.drop 8) (by omega) hb2 (k + 1)
          (res.set k (bits_value 0 (bits.take 8))) (by simp [hres, hdl]; omega)
      have hlt := bits_value_lt (bits.take 8) 0 0 (by norm_num)
      rw [htl] at hlt
      have hun := unpack_byte_bits_value _ hb1 []
      rw [htl] at hun
      refine ⟨bits_value 0 (bits.take 8) :: bytes, ?_, ?_, ?_, ?_⟩
      · rw [hsplit, pack_from_chunk k _ _ res hb1 htl, ← hsplit, h1, take_succ_set res k _ hk]
        simp
      · simp [h2, hdl]; omega
      · intro x hx
        rcases List.mem_cons.mp hx with rfl | hx
        · simpa using hlt
        · exact h3 x hx
      · have hpad : padding (bits.drop 8).length = padding bits.length := by
          simp only [padding, hdl]
          congr 2
          omega
        simp only [List.length_cons, unpack_loop, h4, hun, hpad]
        simp only [List.append_nil, ← List.append_assoc, List.take_append_drop]

theorem pack_spec (bits : List bit_t) (hb : is_bitstring bits) :
    (pack bits).length = (bits.length + 7) / 8 ∧ (∀ x ∈ pack bits, x < 256) ∧
    unpack_loop (pack bits) (pack bits).length
      = .ok (bits ++ List.replicate (padding bits.length) '0') := by
  obtain ⟨bytes, h1, h2, h3, h4⟩ :=
    pack_from_spec bits.length bits (Nat.le_refl _) hb 0
      (List.replicate ((bits.length + 7) / 8) 0) (by simp)
  rw [pack_eq_pack_from, h1]
  simp only [List.take_zero, List.nil_append]
  exact ⟨h2, h3, h4⟩

theorem unpack_pack_pads (b : List bit_t) (hb : is_bitstring b) :
    unpack (pack b) ((b.length + 7) / 8)
        = .ok (b ++ List.replicate (padding b.length) '0') ∧
    (b.length + padding b.length) % 8 = 0 ∧ padding b.length < 8 ∧
    (b.length % 8 = 0 → unpack (pack b) ((b.length + 7) / 8) = .ok b) := by
  obtain ⟨h1, _, h3⟩ := pack_spec b hb
  rw [h1] at h3
  refine ⟨h3, ?_, ?_, ?_⟩
  · simp only [padding]; omega
  · simp only [padding]; omega
  · intro h0
    rw [unpack, h3]
    simp [padding, h0]

/-- C2. Bit/byte round trip: for every string `b` of characters `'0'` and `'1'` (the
empty string included), `unpack(pack(b), ceil(len(b)/8))` returns `b` followed by
characters `'0'` up to the next multiple of 8; it returns `b` itself when `len(b)` is a
multiple of 8. -/
theorem C2_unpack_pack_pads_with_zeros (b : List bit_t) (hb : is_bitstring b) :
    unpack (pack b) ((b.length + 7) / 8)
        = .ok (b ++ List.replicate (padding b.length) '0') ∧
    (b.length + padding b.length) % 8 = 0 ∧ padding b.length < 8 ∧
    (b.length % 8 = 0 → unpack (pack b) ((b.length + 7) / 8) = .ok b) := by
  obtain ⟨h1, _, h3⟩ := pack_spec b hb
  rw [h1] at h3
  refine ⟨h3, ?_, ?_, ?_⟩
  · simp only [padding]; omega
  · simp only [padding]; omega
  · intro h0
    rw [unpack, h3]
    simp [padding, h0]

theorem C2_witness :
    is_bitstring ['1', '1', '1'] ∧
    unpack (pack ['1', '1', '1']) (([('1' : bit_t), '1', '1'].length + 7) / 8)
        = .ok (['1', '1', '1'] ++ List.replicate (padding [('1' : bit_t), '1', '1'].length) '0') ∧
    ([('1' : bit_t), '1', '1'].length + padding [('1' : bit_t), '1', '1'].length) % 8 = 0 ∧
    padding [('1' : bit_t), '1', '1'].length < 8 ∧
    ([('1' : bit_t), '1', '1'].length % 8 = 0 →
      unpack (pack ['1', '1', '1']) (([('1' : bit_t), '1', '1'].length + 7) / 8)
        = .ok ['1', '1', '1']) :=
  ⟨by simp [is_bitstring], C2_unpack_pack_pads_with_zeros ['1', '1', '1'] (by simp [is_bitstring])⟩

/-! ## Tree construction -/

theorem count_nonzero_eq (table : freqtable_t) :
    count_nonzero table = (nonzero_symbols table).length := by
  have key : ∀ (l : List symbol_t) (n : Nat),
      l.foldl (fun count b => if table b ≠ 0 then count + 1 else count) n
        = n + (l.filter (fun a => table a ≠ 0)).length := by
    intro l
    induction l with
    | nil => intro n; simp
    | cons a l ih =>
      intro n
      simp only [List.foldl_cons, ih, List.filter_cons]
      by_cases h : table a ≠ 0
      · simp [h]; omega
      · simp [h]
  unfold count_nonzero nonzero_symbols
  rw [key, Nat.zero_add]

theorem init_queue_elems (P : pq_service) (table : freqtable_t) :
    P.elems (init_queue P table)
      = Multiset.ofList ((nonzero_symbols table).map (new_leaf table)) := by
  have key : ∀ (l : List symbol_t) (q : P.Q),
      P.elems (l.foldl (fun Q a =>
          if table a ≠ 0 then P.pq_add Q (node a (table a % UINT_MOD) NULL NULL) else Q) q)
        = Multiset.ofList ((l.filter (fun a => table a ≠ 0)).map (new_leaf table))
            + P.elems q := by
    intro l
    induction l with
    | nil => intro q; exact (zero_add _).symm
    | cons a l ih =>
      intro q
      simp only [List.foldl_cons, ih, List.filter_cons]
      by_cases h : table a ≠ 0
      · rw [if_pos h, if_pos (decide_eq_true h), P.elems_add, List.map_cons,
          ← Multiset.cons_coe, Multiset.cons_add, Multiset.add_cons]
        rfl
      · rw [if_neg h, if_neg (by simpa using h)]
  unfold init_queue nonzero_symbols
  rw [key, P.elems_new, add_zero]

theorem build_loop_merges (P : pq_service) :
    ∀ (fuel : Nat) (Q : P.Q) (first : htree),
      Multiset.card (P.elems Q) < fuel → P.elems Q ≠ 0 →
      ∃ H, build_loop P fuel Q first = .ok H ∧ merges_to (P.elems Q) H := by
  intro fuel
  induction fuel with
  | zero => intro Q first h _; omega
  | succ fuel ih =>
    intro Q first hcard hne
    have he : P.pq_empty Q = false := by
      cases h : P.pq_empty Q
      · rfl
      · exact absurd ((P.empty_iff Q).mp h) hne
    have hrem := P.elems_rem Q hne
    have hfirst := P.rem_first Q hne
    simp only [build_loop, he, Bool.false_eq_true, if_false]
    cases h2 : P.pq_empty (P.pq_rem Q).2
    · have hne2 : P.elems (P.pq_rem Q).2 ≠ 0 := by
        intro h0
        rw [(P.empty_iff _).mpr h0] at h2
        cases h2
      have hrem2 := P.elems_rem _ hne2
      have hfirst2 := P.rem_first _ hne2
      simp only [Bool.not_false, if_true]
      have hc : Multiset.card (P.elems Q)
          = Multiset.card (P.elems (P.pq_rem (P.pq_rem Q).2).2) + 2 := by
        rw [hrem, hrem2]; simp
      obtain ⟨H, hH, hm⟩ := ih
        (P.pq_add (P.pq_rem (P.pq_rem Q).2).2
          (node 0 (((P.pq_rem Q).1.freq + (P.pq_rem (P.pq_rem Q).2).1.freq) % UINT_MOD)
            (P.pq_rem Q).1 (P.pq_rem (P.pq_rem Q).2).1))
        (P.pq_rem Q).1 (by rw [P.elems_add]; simp; omega) (by rw [P.elems_add]; simp)
      refine ⟨H, hH, ?_⟩
      rw [P.elems_add] at hm
      refine merges_to.step _ _ _ _ _ ?_ hfirst ?_ hm
      · rw [hrem, hrem2]
      · rw [← hrem2]
        exact hfirst2
    · have h0 : P.elems (P.pq_rem Q).2 = 0 := (P.empty_iff _).mp h2
      simp only [Bool.not_true, Bool.false_eq_true, if_false]
      cases fuel with
      | zero =>
        rw [hrem, h0] at hcard
        simp at hcard
      | succ fuel =>
        refine ⟨(P.pq_rem Q).1, by simp [build_loop, h2], ?_⟩
        rw [hrem, h0]
        exact merges_to.last _

theorem nonzero_symbols_length_le (table : freqtable_t) :
    (nonzero_symbols table).length ≤ NUM_SYMBOLS := by
  calc (nonzero_symbols table).length
      ≤ (List.finRange NUM_SYMBOLS).length := List.length_filter_le _ _
    _ = NUM_SYMBOLS := List.length_finRange _

theorem build_htree_merges (P : pq_service) (table : freqtable_t)
    (h2 : 2 ≤ (nonzero_symbols table).length) :
    ∃ H, build_htree P table = .ok H ∧
      merges_to (Multiset.ofList ((nonzero_symbols table).map (new_leaf table))) H := by
  have hq := init_queue_elems P table
  have hle := nonzero_symbols_length_le table
  obtain ⟨H, hH, hm⟩ := build_loop_merges P (NUM_SYMBOLS + 1) (init_queue P table) NULL
    (by rw [hq, Multiset.coe_card, List.length_map]; omega)
    (by
      rw [hq]
      intro h0
      have h1 := congrArg Multiset.card h0
      rw [Multiset.coe_card, List.length_map, Multiset.card_zero] at h1
      omega)
  refine ⟨H, ?_, hq ▸ hm⟩
  rw [build_htree, count_nonzero_eq, if_neg (by omega), hH]

theorem merges_to_of_card_one {M : Multiset htree} {H : htree} (h : merges_to M H)
    (h1 : Multiset.card M = 1) : M = {H} := by
  cases h with
  | last t => rfl
  | step M M2 a b H hM _ _ _ =>
    rw [hM] at h1
    simp at h1

theorem merges_to_is_htree {M : Multiset htree} {H : htree} (h : merges_to M H) :
    (∀ t ∈ M, is_htree t = true) → is_htree H = true := by
  induction h with
  | last t => intro hv; exact hv t (Multiset.mem_singleton_self t)
  | step M M2 a b H hM _ _ _ ih =>
    intro hv
    subst hM
    apply ih
    intro t ht
    rcases Multiset.mem_cons.mp ht with rfl | ht
    · exact is_htree_merge 0 (hv a (by simp)) (hv b (by simp))
    · exact hv t (by simp [ht])

theorem is_htree_leaf_of_child {v : symbol_t} {f : Nat} {l r : htree}
    (hl : l.is_null = false) : is_htree_leaf (node v f l r) = false := by
  simp [is_htree_leaf, hl]

theorem merges_to_interior {M : Multiset htree} {H : htree} (h : merges_to M H) :
    (∀ t ∈ M, t.is_null = false) → 2 ≤ Multiset.card M →
      is_htree_leaf H = false ∧ H.is_null = false := by
  induction h with
  | last t => intro _ hc; simp at hc
  | step M M2 a b H hM _ _ hm ih =>
    intro hv hc
    subst hM
    have ha : a.is_null = false := hv a (by simp)
    have hv2 : ∀ t ∈ node 0 ((a.freq + b.freq) % UINT_MOD) a b ::ₘ M2, t.is_null = false := by
      intro t ht
      rcases Multiset.mem_cons.mp ht with rfl | ht
      · rfl
      · exact hv t (by simp [ht])
    by_cases hM2 : M2 = 0
    swap
    · have hpos : 0 < Multiset.card M2 := Multiset.card_pos.mpr hM2
      exact ih hv2 (by rw [Multiset.card_cons]; omega)
    · have hs := merges_to_of_card_one hm (by rw [hM2]; rfl)
      rw [hM2] at hs
      have hH : node 0 ((a.freq + b.freq) % UINT_MOD) a b = H := by
        simpa using hs
      rw [← hH]
      exact ⟨is_htree_leaf_of_child ha, rfl⟩

theorem new_leaf_is_htree {table : freqtable_t} (hft : is_freqtable table) {a : symbol_t}
    (ha : table a ≠ 0) : is_htree (new_leaf table a) = true := by
  apply is_htree_leaf_of_leaf
  rw [Nat.mod_eq_of_lt (hft a)]
  exact ha

theorem mem_nonzero_symbols {table : freqtable_t} {a : symbol_t} :
    a ∈ nonzero_symbols table ↔ table a ≠ 0 := by
  simp [nonzero_symbols, List.mem_finRange]

/-- C3. Invariant preservation: for every frequency table (of `unsigned int` counters)
with at least two non-zero entries, and every priority queue that on each removal
returns an element such that no queued element has higher priority, `build_htree`
returns a tree, and that tree satisfies `is_htree`. -/
theorem C3_build_htree_result_is_htree (P : pq_service) (table : freqtable_t)
    (hft : is_freqtable table) (h2 : 2 ≤ (nonzero_symbols table).length) :
    ∃ H, build_htree P table = .ok H ∧ is_htree H = true := by
  obtain ⟨H, hH, hm⟩ := build_htree_merges P table h2
  refine ⟨H, hH, merges_to_is_htree hm ?_⟩
  intro t ht
  simp only [Multiset.mem_coe, List.mem_map] at ht
  obtain ⟨a, ha, rfl⟩ := ht
  exact new_leaf_is_htree hft (mem_nonzero_symbols.mp ha)

/-- C7. Insufficient alphabet: `build_htree` fails with `InsufficientSymbols` (and so
returns no tree) if and only if fewer than two of the 256 entries of the frequency
table are non-zero; with two or more non-zero entries it returns a tree, a real node. -/
theorem C7_build_htree_fails_iff_fewer_than_two (P : pq_service) (table : freqtable_t) :
    (build_htree P table = .error .InsufficientSymbols ↔ (nonzero_symbols table).length < 2) ∧
    (2 ≤ (nonzero_symbols table).length →
      ∃ H, build_htree P table = .ok H ∧ H.is_null = false) := by
  have hsome : 2 ≤ (nonzero_symbols table).length →
      ∃ H, build_htree P table = .ok H ∧ H.is_null = false := by
    intro h2
    obtain ⟨H, hH, hm⟩ := build_htree_merges P table h2
    refine ⟨H, hH, (merges_to_interior hm ?_ (by simpa using h2)).2⟩
    intro t ht
    simp only [Multiset.mem_coe, List.mem_map] at ht
    obtain ⟨a, _, rfl⟩ := ht
    rfl
  refine ⟨⟨?_, ?_⟩, hsome⟩
  · intro he
    by_contra hlt
    obtain ⟨H, hH, _⟩ := hsome (by omega)
    rw [hH] at he
    cases he
  · intro hlt
    rw [build_htree, count_nonzero_eq, if_pos hlt]

theorem is_freqtable_freq_AB : is_freqtable freq_AB := by
  intro a
  unfold freq_AB
  split_ifs <;> decide

set_option maxRecDepth 100000 in
theorem nonzero_symbols_freq_AB : nonzero_symbols freq_AB = [65, 66] := by
  decide

theorem C3_witness :
    is_freqtable freq_AB ∧ 2 ≤ (nonzero_symbols freq_AB).length ∧
    ∃ H, build_htree list_pq freq_AB = .ok H ∧ is_htree H = true :=
  ⟨is_freqtable_freq_AB, by rw [nonzero_symbols_freq_AB]; decide,
    C3_build_htree_result_is_htree list_pq freq_AB is_freqtable_freq_AB
      (by rw [nonzero_symbols_freq_AB]; decide)⟩

theorem C7_witness :
    (build_htree list_pq freq_AB = .error .InsufficientSymbols
      ↔ (nonzero_symbols freq_AB).length < 2) ∧
    (2 ≤ (nonzero_symbols freq_AB).length →
      ∃ H, build_htree list_pq freq_AB = .ok H ∧ H.is_null = false) :=
  C7_build_htree_fails_iff_fewer_than_two list_pq freq_AB

/-! ## The leaves of the tree that is built -/

theorem leaves_node_of_child {v : symbol_t} {f : Nat} {l r : htree}
    (hl : l.is_null = false) : leaves (node v f l r) = leaves l ++ leaves r := by
  rw [leaves, is_htree_leaf_of_child hl]
  simp

theorem merges_to_leaves {M : Multiset htree} {H : htree} (h : merges_to M H) :
    (∀ t ∈ M, t.is_null = false) →
      M.bind (fun t => (leaves t : Multiset (symbol_t × Nat))) = (leaves H : Multiset _) := by
  induction h with
  | last t => intro _; simp
  | step M M2 a b H hM _ _ _ ih =>
    intro hv
    subst hM
    have ha : a.is_null = false := hv a (by simp)
    have hv2 : ∀ t ∈ node 0 ((a.freq + b.freq) % UINT_MOD) a b ::ₘ M2, t.is_null = false := by
      intro t ht
      rcases Multiset.mem_cons.mp ht with rfl | ht
      · rfl
      · exact hv t (by simp [ht])
    rw [← ih hv2]
    simp only [Multiset.cons_bind, leaves_node_of_child ha, ← Multiset.coe_add, add_assoc]

theorem leaves_new_leaf {table : freqtable_t} (hft : is_freqtable table) {a : symbol_t}
    (ha : table a ≠ 0) : leaves (new_leaf table a) = [(a, table a)] := by
  have h1 : table a % UINT_MOD = table a := Nat.mod_eq_of_lt (hft a)
  have h2 : is_htree_leaf (node a (table a) NULL NULL) = true :=
    (is_htree_leaf_iff _ _ _ _).mpr ⟨ha, rfl, rfl⟩
  rw [new_leaf, h1, leaves, h2]
  simp

theorem new_leaves_bind {table : freqtable_t} (hft : is_freqtable table) (l : List symbol_t) :
    (∀ a ∈ l, table a ≠ 0) →
      (Multiset.ofList (l.map (new_leaf table))).bind
          (fun t => (leaves t : Multiset (symbol_t × Nat)))
        = Multiset.ofList (l.map (fun a => (a, table a))) := by
  induction l with
  | nil => intro _; simp
  | cons a l ih =>
    intro h
    rw [List.map_cons, ← Multiset.cons_coe, Multiset.cons_bind,
      ih (fun b hb => h b (List.mem_cons_of_mem _ hb)),
      leaves_new_leaf hft (h a (List.mem_cons_self _ _))]
    rfl

theorem build_htree_spec (P : pq_service) (table : freqtable_t) (hft : is_freqtable table)
    (h2 : 2 ≤ (nonzero_symbols table).length) :
    ∃ H, build_htree P table = .ok H ∧ is_htree H = true ∧ is_htree_leaf H = false ∧
      (leaves H).Perm ((nonzero_symbols table).map (fun a => (a, table a))) ∧
      merges_to (Multiset.ofList ((nonzero_symbols table).map (new_leaf table))) H := by
  obtain ⟨H, hH, hm⟩ := build_htree_merges P table h2
  have hv : ∀ t ∈ Multiset.ofList ((nonzero_symbols table).map (new_leaf table)),
      is_htree t = true := by
    intro t ht
    simp only [Multiset.mem_coe, List.mem_map] at ht
    obtain ⟨a, ha, rfl⟩ := ht
    exact new_leaf_is_htree hft (mem_nonzero_symbols.mp ha)
  have hn : ∀ t ∈ Multiset.ofList ((nonzero_symbols table).map (new_leaf table)),
      t.is_null = false := fun t ht => is_null_eq_false_of_is_htree (hv t ht)
  refine ⟨H, hH, merges_to_is_htree hm hv,
    (merges_to_interior hm hn (by simpa using h2)).1, ?_, hm⟩
  have hl := merges_to_leaves hm hn
  rw [new_leaves_bind hft _ (fun a ha => mem_nonzero_symbols.mp ha)] at hl
  exact (Multiset.coe_eq_coe.mp hl).symm

theorem leaf_paths_symbols (H : htree) :
    (leaf_paths H).map Prod.fst = (leaves H).map Prod.fst := by
  induction H with
  | NULL => rfl
  | node v f l r ihl ihr =>
    simp only [leaf_paths, leaves]
    split
    · rfl
    · simp [List.map_append, List.map_map, Function.comp_def, ← ihl, ← ihr]

theorem nonzero_symbols_nodup (table : freqtable_t) : (nonzero_symbols table).Nodup :=
  (List.nodup_finRange _).filter _

theorem build_htree_symbols (P : pq_service) (table : freqtable_t) (hft : is_freqtable table)
    (h2 : 2 ≤ (nonzero_symbols table).length) :
    ∃ H, build_htree P table = .ok H ∧ is_htree H = true ∧ is_htree_leaf H = false ∧
      ((leaf_paths H).map Prod.fst).Perm (nonzero_symbols table) := by
  obtain ⟨H, hH, hv, hl, hp, _⟩ := build_htree_spec P table hft h2
  refine ⟨H, hH, hv, hl, ?_⟩
  rw [leaf_paths_symbols]
  have := hp.map Prod.fst
  simpa [List.map_map, Function.comp_def] using this

/-! ## Decoding an encoded sequence -/

theorem leaf_shape {t : htree} (h : is_htree_leaf t = true) :
    ∃ v f, t = node v f NULL NULL ∧ f ≠ 0 := by
  cases t with
  | NULL => simp [is_htree_leaf] at h
  | node v f l r =>
    obtain ⟨hf, hl, hr⟩ := (is_htree_leaf_iff v f l r).mp h
    exact ⟨v, f, by rw [hl, hr], hf⟩

theorem leaf_paths_of_leaf {t : htree} (h : is_htree_leaf t = true) :
    ∃ v, leaf_paths t = [(v, [])] ∧ htree_value t = .ok v := by
  obtain ⟨v, f, rfl, _⟩ := leaf_shape h
  exact ⟨v, by simp [leaf_paths, h], rfl⟩

theorem mem_leaf_paths_node {v0 : symbol_t} {f : Nat} {l r : htree}
    (hleaf : is_htree_leaf (node v0 f l r) = false) {v : symbol_t} {p : bitstring_t}
    (h : (v, p) ∈ leaf_paths (node v0 f l r)) :
    (∃ q, p = '0' :: q ∧ (v, q) ∈ leaf_paths l) ∨
    (∃ q, p = '1' :: q ∧ (v, q) ∈ leaf_paths r) := by
  simp only [leaf_paths, hleaf, Bool.false_eq_true, if_false, List.mem_append,
    List.mem_map, Prod.mk.injEq] at h
  rcases h with ⟨x, hx, h1, h2⟩ | ⟨x, hx, h1, h2⟩
  · exact Or.inl ⟨x.2, h2.symm, by rw [← h1]; exact hx⟩
  · exact Or.inr ⟨x.2, h2.symm, by rw [← h1]; exact hx⟩

theorem decode_fill_path (root : htree) (sub : htree) :
    is_htree sub = true → is_htree_leaf sub = false →
    ∀ (v : symbol_t) (p : bitstring_t), (v, p) ∈ leaf_paths sub →
    ∀ (rest : List bit_t) (res : List symbol_t),
      decode_fill root (p ++ rest) sub res = decode_fill root rest root (res ++ [v]) := by
  induction sub with
  | NULL => intro h; simp [is_htree] at h
  | node v0 f l r ihl ihr =>
    intro hv hleaf v p hmem rest res
    rcases is_htree_node_cases hv with ⟨h1, _⟩ | ⟨_, hl, hr, _⟩
    · rw [hleaf] at h1; cases h1
    · rcases mem_leaf_paths_node hleaf hmem with ⟨q, rfl, hq⟩ | ⟨q, rfl, hq⟩
      · simp only [List.cons_append, decode_fill, decode_move_zero]
        by_cases hll : is_htree_leaf l = true
        · obtain ⟨vl, hpl, hvl⟩ := leaf_paths_of_leaf hll
          rw [hpl, List.mem_singleton, Prod.mk.injEq] at hq
          obtain ⟨rfl, rfl⟩ := hq
          simp [hll, hvl]
        · rw [if_neg hll]
          exact ihl hl (by simpa using hll) v q hq rest res
      · simp only [List.cons_append, decode_fill, decode_move_one]
        by_cases hrl : is_htree_leaf r = true
        · obtain ⟨vr, hpr, hvr⟩ := leaf_paths_of_leaf hrl
          rw [hpr, List.mem_singleton, Prod.mk.injEq] at hq
          obtain ⟨rfl, rfl⟩ := hq
          simp [hrl, hvr]
        · rw [if_neg hrl]
          exact ihr hr (by simpa using hrl) v q hq rest res

theorem decode_count_path (root : htree) (sub : htree) :
    is_htree sub = true → is_htree_leaf sub = false →
    ∀ (v : symbol_t) (p : bitstring_t), (v, p) ∈ leaf_paths sub →
    ∀ (rest : List bit_t) (count : Nat),
      decode_count root (p ++ rest) sub count = decode_count root rest root (count + 1) := by
  induction sub with
  | NULL => intro h; simp [is_htree] at h
  | node v0 f l r ihl ihr =>
    intro hv hleaf v p hmem rest count
    rcases is_htree_node_cases hv with ⟨h1, _⟩ | ⟨_, hl, hr, _⟩
    · rw [hleaf] at h1; cases h1
    · rcases mem_leaf_paths_node hleaf hmem with ⟨q, rfl, hq⟩ | ⟨q, rfl, hq⟩
      · simp only [List.cons_append, decode_count, decode_move_zero]
        by_cases hll : is_htree_leaf l = true
        · obtain ⟨vl, hpl, _⟩ := leaf_paths_of_leaf hll
          rw [hpl, List.mem_singleton, Prod.mk.injEq] at hq
          obtain ⟨rfl, rfl⟩ := hq
          simp [hll]
        · rw [if_neg hll]
          exact ihl hl (by simpa using hll) v q hq rest count
      · simp only [List.cons_append, decode_count, decode_move_one]
        by_cases hrl : is_htree_leaf r = true
        · obtain ⟨vr, hpr, _⟩ := leaf_paths_of_leaf hrl
          rw [hpr, List.mem_singleton, Prod.mk.injEq] at hq
          obtain ⟨rfl, rfl⟩ := hq
          simp [hrl]
        · rw [if_neg hrl]
          exact ihr hr (by simpa using hrl) v q hq rest count

theorem decode_fill_codes (H : htree) (hv : is_htree H = true)
    (hl : is_htree_leaf H = false) (T : codetable_t) (s : List symbol_t) :
    (∀ a ∈ s, (a, code_of T a) ∈ leaf_paths H) →
    ∀ (rest : List bit_t) (res : List symbol_t),
      decode_fill H (s.flatMap (code_of T) ++ rest) H res = decode_fill H rest H (res ++ s) := by
  induction s with
  | nil => intro _ rest res; simp
  | cons a s ih =>
    intro h rest res
    rw [List.flatMap_cons, List.append_assoc,
      decode_fill_path H H hv hl a _ (h a (List.mem_cons_self _ _)),
      ih (fun b hb => h b (List.mem_cons_of_mem _ hb))]
    simp

theorem decode_count_codes (H : htree) (hv : is_htree H = true)
    (hl : is_htree_leaf H = false) (T : codetable_t) (s : List symbol_t) :
    (∀ a ∈ s, (a, code_of T a) ∈ leaf_paths H) →
    ∀ (rest : List bit_t) (count : Nat),
      decode_count H (s.flatMap (code_of T) ++ rest) H count
        = decode_count H rest H (count + s.length) := by
  induction s with
  | nil => intro _ rest count; simp
  | cons a s ih =>
    intro h rest count
    rw [List.flatMap_cons, List.append_assoc,
      decode_count_path H H hv hl a _ (h a (List.mem_cons_self _ _)),
      ih (fun b hb => h b (List.mem_cons_of_mem _ hb))]
    simp [Nat.add_assoc, Nat.add_comm 1]

theorem decode_src_codes (H : htree) (hv : is_htree H = true)
    (hl : is_htree_leaf H = false) (T : codetable_t) (s : List symbol_t)
    (h : ∀ a ∈ s, (a, code_of T a) ∈ leaf_paths H) (rest : List bit_t) :
    decode_src H (s.flatMap (code_of T) ++ rest) =
      match decode_count H rest H s.length with
      | .error e => .error e
      | .ok count =>
        match decode_fill H rest H s with
        | .error e => .error e
        | .ok res => .ok (res, count) := by
  simp only [decode_src, decode_fill_codes H hv hl T s h, decode_count_codes H hv hl T s h,
    Nat.zero_add, List.nil_append]

theorem symbols_round_trip (H : htree) (hv : is_htree H = true)
    (hl : is_htree_leaf H = false) (hd : ((leaf_paths H).map Prod.fst).Nodup)
    (s : List symbol_t) (hs : ∀ a ∈ s, a ∈ (leaf_paths H).map Prod.fst) :
    ∃ T, htree_to_codetable H = .ok T ∧
      (∀ a ∈ s, (a, code_of T a) ∈ leaf_paths H) ∧
      encode_src T s s.length = .ok (s.flatMap (code_of T)) ∧
      decode_src H (s.flatMap (code_of T)) = .ok (s, s.length) := by
  refine ⟨_, htree_to_codetable_eq hv, ?_⟩
  have hcode : ∀ a ∈ s, ∃ p, (a, p) ∈ leaf_paths H ∧
      store_codes (fun _ => none) (leaf_paths H) a = some p := by
    intro a ha
    obtain ⟨x, hx, rfl⟩ := List.mem_map.mp (hs a ha)
    exact ⟨x.2, hx, store_codes_of_nodup _ _ hd x.1 x.2 hx⟩
  have hmem : ∀ a ∈ s,
      (a, code_of (store_codes (fun _ => none) (leaf_paths H)) a) ∈ leaf_paths H := by
    intro a ha
    obtain ⟨p, hp, hT⟩ := hcode a ha
    simpa [code_of, hT] using hp
  refine ⟨hmem, ?_, ?_⟩
  · apply encode_src_eq
    intro a ha
    obtain ⟨p, _, hT⟩ := hcode a ha
    rw [hT]
    simp
  · have := decode_src_codes H hv hl _ s hmem []
    simpa [decode_count, decode_fill] using this

theorem is_freqtable_occurrences (s : List symbol_t) (h : s.length < UINT_MOD) :
    is_freqtable (occurrences s) :=
  fun a => Nat.lt_of_le_of_lt (List.count_le_length a s) h

theorem mem_nonzero_symbols_occurrences {s : List symbol_t} {a : symbol_t} :
    a ∈ nonzero_symbols (occurrences s) ↔ a ∈ s := by
  rw [mem_nonzero_symbols, occurrences, ← Nat.pos_iff_ne_zero]
  exact List.count_pos_iff

theorem two_le_nonzero_symbols_occurrences {s : List symbol_t}
    (h2 : ∃ a ∈ s, ∃ b ∈ s, a ≠ b) : 2 ≤ (nonzero_symbols (occurrences s)).length := by
  obtain ⟨a, ha, b, hb, hab⟩ := h2
  have hnd : [a, b].Nodup := by simp [hab]
  have hsub : [a, b] ⊆ nonzero_symbols (occurrences s) := by
    intro x hx
    simp only [List.mem_cons, List.mem_singleton, List.not_mem_nil, or_false] at hx
    rcases hx with rfl | rfl
    · exact mem_nonzero_symbols_occurrences.mpr ha
    · exact mem_nonzero_symbols_occurrences.mpr hb
  exact (List.subperm_of_subset hnd hsub).length_le

/-- C1. Symbol round trip: for every symbol sequence `s` in which at least two distinct
byte values occur, with `table` the occurrence counts of `s` (each count a value of
type `unsigned int`), `H = build_htree(table)` and `T = htree_to_codetable(H)`, the call
`decode_src(H, encode_src(T, s, |s|))` returns exactly `s` and reports the decoded
length `|s|`. -/
theorem C1_decode_of_encode_is_identity (P : pq_service) (s : List symbol_t)
    (hft : is_freqtable (occurrences s)) (h2 : ∃ a ∈ s, ∃ b ∈ s, a ≠ b) :
    ∃ H T code, build_htree P (occurrences s) = .ok H ∧ htree_to_codetable H = .ok T ∧
      encode_src T s s.length = .ok code ∧ decode_src H code = .ok (s, s.length) := by
  obtain ⟨H, hH, hv, hl, hp⟩ :=
    build_htree_symbols P (occurrences s) hft (two_le_nonzero_symbols_occurrences h2)
  have hd : ((leaf_paths H).map Prod.fst).Nodup :=
    hp.nodup_iff.mpr (nonzero_symbols_nodup _)
  have hs : ∀ a ∈ s, a ∈ (leaf_paths H).map Prod.fst :=
    fun a ha => hp.mem_iff.mpr (mem_nonzero_symbols_occurrences.mpr ha)
  obtain ⟨T, hT, _, he, hdec⟩ := symbols_round_trip H hv hl hd s hs
  exact ⟨H, T, _, hH, hT, he, hdec⟩

theorem C1_witness :
    is_freqtable (occurrences [65, 65, 66, 65, 66, 66, 66]) ∧
    (∃ a ∈ [(65 : symbol_t), 65, 66, 65, 66, 66, 66],
      ∃ b ∈ [(65 : symbol_t), 65, 66, 65, 66, 66, 66], a ≠ b) ∧
    ∃ H T code, build_htree list_pq (occurrences [65, 65, 66, 65, 66, 66, 66]) = .ok H ∧
      htree_to_codetable H = .ok T ∧
      encode_src T [65, 65, 66, 65, 66, 66, 66]
        [(65 : symbol_t), 65, 66, 65, 66, 66, 66].length = .ok code ∧
      decode_src H code
        = .ok ([65, 65, 66, 65, 66, 66, 66], [(65 : symbol_t), 65, 66, 65, 66, 66, 66].length) :=
  ⟨is_freqtable_occurrences _ (by decide), ⟨65, by simp, 66, by simp, by decide⟩,
    C1_decode_of_encode_is_identity list_pq [65, 65, 66, 65, 66, 66, 66]
      (is_freqtable_occurrences _ (by decide)) ⟨65, by simp, 66, by simp, by decide⟩⟩

/-! ## Tables with two non-zero entries -/

theorem merges_to_pair {x y H : htree} (h : merges_to (x ::ₘ {y}) H)
    (hlt : x.freq < y.freq) : H = node 0 ((x.freq + y.freq) % UINT_MOD) x y := by
  generalize hM0 : x ::ₘ {y} = M0 at h
  cases h with
  | last t =>
    have := congrArg Multiset.card hM0
    simp at this
  | step M M2 a b H hM hfirst _ hm =>
    rw [← hM0] at hM hfirst
    have hc := congrArg Multiset.card hM
    simp only [Multiset.card_cons, Multiset.card_singleton] at hc
    have hM2 : M2 = 0 := Multiset.card_eq_zero.mp (by omega)
    subst hM2
    have hax : a = x := by
      have ha : a ∈ x ::ₘ {y} := by rw [hM]; simp
      rcases Multiset.mem_cons.mp ha with h1 | h1
      · exact h1
      · have hay : a = y := Multiset.mem_singleton.mp h1
        have := hfirst x (by simp)
        rw [hay] at this
        simp [htree_higher_priority, hlt] at this
    subst hax
    have hby : b = y := by
      have := (Multiset.cons_inj_right a).mp hM
      simpa using this.symm
    subst hby
    have hs := merges_to_of_card_one hm (by simp)
    have : node 0 ((a.freq + b.freq) % UINT_MOD) a b = H := by simpa using hs
    exact this.symm

theorem build_htree_two (P : pq_service) (table : freqtable_t) (hft : is_freqtable table)
    (x y : symbol_t) (hp : (nonzero_symbols table).Perm [x, y]) (hlt : table x < table y) :
    build_htree P table
      = .ok (node 0 ((table x + table y) % UINT_MOD)
          (node x (table x) NULL NULL) (node y (table y) NULL NULL)) := by
  obtain ⟨H, hH, hm⟩ := build_htree_merges P table (by rw [hp.length_eq]; rfl)
  have hM : Multiset.ofList ((nonzero_symbols table).map (new_leaf table))
      = new_leaf table x ::ₘ {new_leaf table y} :=
    Multiset.coe_eq_coe.mpr (hp.map _)
  rw [hM] at hm
  have hx : new_leaf table x = node x (table x) NULL NULL := by
    rw [new_leaf, Nat.mod_eq_of_lt (hft x)]
  have hy : new_leaf table y = node y (table y) NULL NULL := by
    rw [new_leaf, Nat.mod_eq_of_lt (hft y)]
  rw [hx, hy] at hm
  rw [hH, merges_to_pair hm hlt]
  rfl

theorem nonzero_symbols_perm_pair (table : freqtable_t) (x y : symbol_t) (hxy : x ≠ y)
    (h : ∀ a, table a ≠ 0 ↔ a = x ∨ a = y) : (nonzero_symbols table).Perm [x, y] := by
  rw [List.perm_ext_iff_of_nodup (nonzero_symbols_nodup table) (by simp [hxy])]
  intro a
  rw [mem_nonzero_symbols, h a]
  simp

theorem occurrences_example (A B : symbol_t) (hAB : A ≠ B) :
    occurrences [A, A, B, A, B, B, B] A = 3 ∧ occurrences [A, A, B, A, B, B, B] B = 4 ∧
    (nonzero_symbols (occurrences [A, A, B, A, B, B, B])).Perm [A, B] := by
  have hBA : B ≠ A := fun h => hAB h.symm
  refine ⟨by simp [occurrences, List.count_cons, hAB, hBA],
    by simp [occurrences, List.count_cons, hAB, hBA], ?_⟩
  apply nonzero_symbols_perm_pair _ A B hAB
  intro a
  rw [← mem_nonzero_symbols, mem_nonzero_symbols_occurrences]
  simp
  tauto

theorem pipeline_example (P : pq_service) (A B : symbol_t) (hAB : A ≠ B) :
    build_htree P (occurrences [A, A, B, A, B, B, B])
      = .ok (node 0 7 (node A 3 NULL NULL) (node B 4 NULL NULL)) ∧
    is_htree (node 0 7 (node A 3 NULL NULL) (node B 4 NULL NULL)) = true ∧
    htree_to_codetable (node 0 7 (node A 3 NULL NULL) (node B 4 NULL NULL))
      = .ok (store_codes (fun _ => none) [(A, ['0']), (B, ['1'])]) ∧
    encode_src (store_codes (fun _ => none) [(A, ['0']), (B, ['1'])]) [A, A, B, A, B, B, B] 7
      = .ok ['0', '0', '1', '0', '1', '1', '1'] ∧
    unpack (pack ['0', '0', '1', '0', '1', '1', '1']) 1
      = .ok ['0', '0', '1', '0', '1', '1', '1', '0'] ∧
    decode_src (node 0 7 (node A 3 NULL NULL) (node B 4 NULL NULL))
        ['0', '0', '1', '0', '1', '1', '1', '0']
      = .ok ([A, A, B, A, B, B, B, A], 8) := by
  obtain ⟨hA, hB, hp⟩ := occurrences_example A B hAB
  have hft : is_freqtable (occurrences [A, A, B, A, B, B, B]) :=
    is_freqtable_occurrences _ (by simp [UINT_MOD])
  have hbuild := build_htree_two P _ hft A B hp (by rw [hA, hB]; decide)
  rw [hA, hB, show (3 + 4) % UINT_MOD = 7 from rfl] at hbuild
  have hv : is_htree (node 0 7 (node A 3 NULL NULL) (node B 4 NULL NULL)) = true := by
    simp [is_htree, is_htree_leaf, htree.is_null, htree.freq, UINT_MOD]
  have hBA : B ≠ A := fun h => hAB h.symm
  have hTA : store_codes (fun _ => none) [(A, ['0']), (B, ['1'])] A = some ['0'] :=
    store_codes_of_nodup _ _ (by simp [hAB]) A _ (by simp)
  have hTB : store_codes (fun _ => none) [(A, ['0']), (B, ['1'])] B = some ['1'] :=
    store_codes_of_nodup _ _ (by simp [hAB]) B _ (by simp)
  refine ⟨hbuild, hv, ?_, ?_, by decide, ?_⟩
  · rw [htree_to_codetable_eq hv]
    simp [leaf_paths, is_htree_leaf, htree.is_null]
  · have he := encode_src_eq (store_codes (fun _ => none) [(A, ['0']), (B, ['1'])])
      [A, A, B, A, B, B, B] (by simp [hTA, hTB])
    simpa [code_of, hTA, hTB] using he
  · simp [decode_src, decode_count, decode_fill, decode_move, is_htree_leaf, htree.is_null,
      htree_value]

/-- C6 (as stated, refuted). For the input `[65, 65, 66, 65, 66, 66, 66]` and the list
priority queue, no run of build, code table, encode, pack, unpack and decode ends with
the original seven symbols and the length 7: the zero character that pads the single
packed byte is decoded as an eighth symbol. -/
theorem C6_counterexample_padding_is_decoded :
    ¬ ∃ H T e bits, build_htree list_pq (occurrences [65, 65, 66, 65, 66, 66, 66]) = .ok H ∧
      is_htree H = true ∧ htree_to_codetable H = .ok T ∧
      encode_src T [65, 65, 66, 65, 66, 66, 66] 7 = .ok e ∧
      unpack (pack e) 1 = .ok bits ∧
      decode_src H bits = .ok ([65, 65, 66, 65, 66, 66, 66], 7) := by
  rintro ⟨H, T, e, bits, h1, _, h3, h4, h5, h6⟩
  obtain ⟨g1, _, g3, g4, g5, g6⟩ := pipeline_example list_pq 65 66 (by decide)
  rw [g1] at h1
  have hH := Except.ok.inj h1
  subst hH
  rw [g3] at h3
  have hT := Except.ok.inj h3
  subst hT
  rw [g4] at h4
  have he := Except.ok.inj h4
  subst he
  rw [g5] at h5
  have hb := Except.ok.inj h5
  subst hb
  rw [g6] at h6
  have := Except.ok.inj h6
  simp at this

/-- C6 (amended). Concrete end-to-end example: for the input `[A, A, B, A, B, B, B]`
(`A` and `B` distinct bytes, frequencies `A = 3`, `B = 4`) the built tree satisfies
`is_htree`, and `decode_src(H, unpack(pack(encode_src(T, input)), 1))` yields the
eight symbols `[A, A, B, A, B, B, B, A]` with decoded length 8: the original seven
symbols followed by the symbol `A` decoded from the padding bit. -/
theorem C6_pipeline_yields_input_and_one_symbol (P : pq_service) (A B : symbol_t)
    (hAB : A ≠ B) :
    ∃ H T e bits, build_htree P (occurrences [A, A, B, A, B, B, B]) = .ok H ∧
      is_htree H = true ∧ htree_to_codetable H = .ok T ∧
      encode_src T [A, A, B, A, B, B, B] 7 = .ok e ∧
      unpack (pack e) 1 = .ok bits ∧
      decode_src H bits = .ok ([A, A, B, A, B, B, B, A], 8) := by
  obtain ⟨g1, g2, g3, g4, g5, g6⟩ := pipeline_example P A B hAB
  exact ⟨_, _, _, _, g1, g2, g3, g4, g5, g6⟩

theorem C6_witness :
    (65 : symbol_t) ≠ 66 ∧
    ∃ H T e bits, build_htree list_pq (occurrences [65, 65, 66, 65, 66, 66, 66]) = .ok H ∧
      is_htree H = true ∧ htree_to_codetable H = .ok T ∧
      encode_src T [65, 65, 66, 65, 66, 66, 66] 7 = .ok e ∧
      unpack (pack e) 1 = .ok bits ∧
      decode_src H bits = .ok ([65, 65, 66, 65, 66, 66, 66, 65], 8) :=
  ⟨by decide, C6_pipeline_yields_input_and_one_symbol list_pq 65 66 (by decide)⟩

/-! ## Optimality of the tree that is built -/

namespace code_tree

theorem depth_multiset_leaf (d : Nat) (a : symbol_t) :
    depth_multiset d (leaf a) = {d} := rfl

theorem depth_multiset_node (d : Nat) (l r : code_tree) :
    depth_multiset d (node l r) = depth_multiset (d + 1) l + depth_multiset (d + 1) r := by
  simp [depth_multiset, depths_from]

theorem depth_le_height (c : code_tree) :
    ∀ d, ∀ x ∈ depth_multiset d c, x ≤ d + height c := by
  induction c with
  | leaf a =>
    intro d x hx
    rw [depth_multiset_leaf, Multiset.mem_singleton] at hx
    omega
  | node l r ihl ihr =>
    intro d x hx
    rw [depth_multiset_node, Multiset.mem_add] at hx
    simp only [height]
    rcases hx with hx | hx
    · have := ihl (d + 1) x hx
      omega
    · have := ihr (d + 1) x hx
      omega

theorem card_depth_multiset_pos (c : code_tree) (d : Nat) :
    0 < Multiset.card (depth_multiset d c) := by
  induction c generalizing d with
  | leaf a => simp [depth_multiset_leaf]
  | node l r ihl _ =>
    rw [depth_multiset_node, Multiset.card_add]
    have := ihl (d + 1)
    omega

theorem height_pos_of_card {c : code_tree} {d : Nat}
    (h : 2 ≤ Multiset.card (depth_multiset d c)) : 1 ≤ height c := by
  cases c with
  | leaf a => simp [depth_multiset_leaf] at h
  | node l r => simp [height]

/-- Two leaves of greatest depth can be replaced by one leaf, one level up. -/
theorem deepest_pair (c : code_tree) :
    ∀ d, 1 ≤ height c → ∃ (R : Multiset Nat) (c2 : code_tree),
      depth_multiset d c = (d + height c) ::ₘ (d + height c) ::ₘ R ∧
      depth_multiset d c2 = (d + height c - 1) ::ₘ R := by
  induction c with
  | leaf a => intro d h; simp [height] at h
  | node l r ihl ihr =>
    intro d _
    by_cases hlr : height r ≤ height l
    · have hh : height (node l r) = height l + 1 := by simp [height, hlr]
      by_cases hl0 : height l = 0
      · have hr0 : height r = 0 := by omega
        cases l with
        | node l1 l2 => simp [height] at hl0
        | leaf a =>
          cases r with
          | node r1 r2 => simp [height] at hr0
          | leaf b =>
            refine ⟨0, leaf 0, ?_, ?_⟩
            · simp [depth_multiset_node, depth_multiset_leaf, height]
            · simp [depth_multiset_leaf, height]
      · obtain ⟨R, l2, h1, h2⟩ := ihl (d + 1) (by omega)
        refine ⟨R + depth_multiset (d + 1) r, node l2 r, ?_, ?_⟩
        · rw [depth_multiset_node, h1, hh]
          simp [Nat.add_assoc, Nat.add_comm 1]
        · rw [depth_multiset_node, h2, hh]
          simp [Nat.add_assoc, Nat.add_comm 1]
    · have hh : height (node l r) = height r + 1 := by
        simp only [height]
        omega
      obtain ⟨R, r2, h1, h2⟩ := ihr (d + 1) (by omega)
      refine ⟨depth_multiset (d + 1) l + R, node l r2, ?_, ?_⟩
      · rw [depth_multiset_node, h1, hh]
        simp [Nat.add_assoc, Nat.add_comm 1]
      · rw [depth_multiset_node, h2, hh]
        simp [Nat.add_assoc, Nat.add_comm 1]

end code_tree

theorem pairs_cost_cons (p : Nat × Nat) (P : Multiset (Nat × Nat)) :
    pairs_cost (p ::ₘ P) = p.1 * p.2 + pairs_cost P := by
  simp [pairs_cost]

/-- Moving a least weight to a greatest depth does not raise the cost. -/
theorem move_least_to_deepest (Q : Multiset (Nat × Nat)) (x h a : Nat)
    (hdeep : ∀ p ∈ Q, p.2 ≤ h) (hmem : a ∈ x ::ₘ Q.map Prod.fst)
    (hmin : ∀ w ∈ x ::ₘ Q.map Prod.fst, a ≤ w) :
    ∃ Q1 : Multiset (Nat × Nat), Q1.map Prod.snd = Q.map Prod.snd ∧
      a ::ₘ Q1.map Prod.fst = x ::ₘ Q.map Prod.fst ∧
      pairs_cost ((a, h) ::ₘ Q1) ≤ pairs_cost ((x, h) ::ₘ Q) := by
  by_cases hax : a = x
  · subst hax
    exact ⟨Q, rfl, rfl, Nat.le_refl _⟩
  · have haQ : a ∈ Q.map Prod.fst := by
      rcases Multiset.mem_cons.mp hmem with h1 | h1
      · exact absurd h1 hax
      · exact h1
    obtain ⟨p, hp, hpa⟩ := Multiset.mem_map.mp haQ
    obtain ⟨Q2, rfl⟩ := Multiset.exists_cons_of_mem hp
    refine ⟨(x, p.2) ::ₘ Q2, by simp, ?_, ?_⟩
    · simp only [Multiset.map_cons, ← hpa]
      exact Multiset.cons_swap _ _ _
    · have hle : a ≤ x := hmin x (Multiset.mem_cons_self _ _)
      have hd : p.2 ≤ h := hdeep p (Multiset.mem_cons_self _ _)
      simp only [pairs_cost_cons, ← hpa]
      obtain ⟨e, rfl⟩ := Nat.exists_eq_add_of_le hle
      obtain ⟨g, rfl⟩ := Nat.exists_eq_add_of_le hd
      nlinarith [Nat.zero_le (e * g)]

theorem exists_pair_of_map_snd {P : Multiset (Nat × Nat)} {h : Nat} {R : Multiset Nat}
    (hP : P.map Prod.snd = h ::ₘ R) :
    ∃ (x : Nat) (Q : Multiset (Nat × Nat)), P = (x, h) ::ₘ Q ∧ Q.map Prod.snd = R := by
  obtain ⟨p, hp, hph, hrest⟩ := (Multiset.map_eq_cons Prod.snd P R h).mpr hP
  refine ⟨p.1, P.erase p, ?_, hrest⟩
  rw [← hph]
  exact (Multiset.cons_erase hp).symm

/-- The exchange step: an assignment of weights to the leaf depths of a code tree can
be turned, at no greater cost, into one where the two least weights are merged. -/
theorem merge_two_least (P : Multiset (Nat × Nat)) (c : code_tree) (a b : Nat)
    (W : Multiset Nat) (hc : P.map Prod.snd = code_tree.depth_multiset 0 c)
    (hW : P.map Prod.fst = a ::ₘ b ::ₘ W) (ha : ∀ w ∈ a ::ₘ b ::ₘ W, a ≤ w)
    (hb : ∀ w ∈ b ::ₘ W, b ≤ w) :
    ∃ (P2 : Multiset (Nat × Nat)) (c2 : code_tree),
      P2.map Prod.snd = code_tree.depth_multiset 0 c2 ∧
      P2.map Prod.fst = (a + b) ::ₘ W ∧ pairs_cost P2 + a + b ≤ pairs_cost P := by
  have hcard : 2 ≤ Multiset.card (code_tree.depth_multiset 0 c) := by
    rw [← hc, Multiset.card_map, ← Multiset.card_map Prod.fst, hW]
    simp
  have hh := code_tree.height_pos_of_card hcard
  obtain ⟨R, c2, hR, hc2⟩ := code_tree.deepest_pair c 0 hh
  have hmax := code_tree.depth_le_height c 0
  simp only [Nat.zero_add] at hR hc2 hmax
  generalize code_tree.height c = h at hh hR hc2 hmax
  rw [← hc] at hmax
  rw [hR] at hc
  obtain ⟨x, Q, rfl, hQ⟩ := exists_pair_of_map_snd hc
  have hdeepQ : ∀ p ∈ Q, p.2 ≤ h := by
    intro p hp
    exact hmax p.2 (Multiset.mem_map_of_mem _ (Multiset.mem_cons_of_mem hp))
  rw [Multiset.map_cons] at hW
  obtain ⟨Q1, hQ1s, hQ1f, hcost1⟩ := move_least_to_deepest Q x h a hdeepQ
    (by rw [hW]; exact Multiset.mem_cons_self _ _) (by rw [hW]; exact ha)
  rw [hW, Multiset.cons_inj_right] at hQ1f
  rw [hQ] at hQ1s
  obtain ⟨y, Q1r, rfl, hQ1r⟩ := exists_pair_of_map_snd hQ1s
  have hdeepQ1 : ∀ p ∈ Q1r, p.2 ≤ h := by
    intro p hp
    have h1 : p.2 ∈ Q1r.map Prod.snd := Multiset.mem_map_of_mem _ hp
    rw [hQ1r] at h1
    apply hmax
    rw [hc]
    exact Multiset.mem_cons_of_mem (Multiset.mem_cons_of_mem h1)
  rw [Multiset.map_cons] at hQ1f
  obtain ⟨Q2, hQ2s, hQ2f, hcost2⟩ := move_least_to_deepest Q1r y h b hdeepQ1
    (by rw [hQ1f]; exact Multiset.mem_cons_self _ _) (by rw [hQ1f]; exact hb)
  rw [hQ1f, Multiset.cons_inj_right] at hQ2f
  refine ⟨(a + b, h - 1) ::ₘ Q2, c2, ?_, ?_, ?_⟩
  · rw [Multiset.map_cons, hQ2s, hQ1r, hc2]
  · rw [Multiset.map_cons, hQ2f]
  · have hsub : (a + b) * (h - 1) + a + b = a * h + b * h := by
      obtain ⟨g, rfl⟩ := Nat.exists_eq_add_of_le hh
      have e : 1 + g - 1 = g := by omega
      rw [e]
      ring
    simp only [pairs_cost_cons] at hcost1 hcost2 ⊢
    linarith

/-! ### Weighted path length of the trees in the queue -/

theorem weight_node_of_child {v : symbol_t} {f : Nat} {l r : htree}
    (hl : l.is_null = false) : weight (node v f l r) = weight l + weight r := by
  simp [weight, leaves_node_of_child hl]

theorem leaf_depths_cost_succ (t : htree) :
    ∀ d, ((leaf_depths (d + 1) t).map (fun x => x.1 * x.2)).sum
      = ((leaf_depths d t).map (fun x => x.1 * x.2)).sum + weight t := by
  induction t with
  | NULL => intro d; simp [leaf_depths, weight, leaves]
  | node v f l r ihl ihr =>
    intro d
    by_cases hleaf : is_htree_leaf (node v f l r) = true
    · simp [leaf_depths, weight, leaves, hleaf, Nat.mul_succ]
    · simp only [leaf_depths, weight, leaves, hleaf, Bool.false_eq_true, if_false,
        List.map_append, List.sum_append, ihl (d + 1), ihr (d + 1)]
      omega

theorem weighted_path_length_node {v : symbol_t} {f : Nat} {l r : htree}
    (hl : l.is_null = false) :
    weighted_path_length (node v f l r)
      = weighted_path_length l + weighted_path_length r + weight l + weight r := by
  simp only [weighted_path_length, leaf_depths, is_htree_leaf_of_child hl,
    Bool.false_eq_true, if_false, List.map_append, List.sum_append, Nat.zero_add,
    leaf_depths_cost_succ l 0, leaf_depths_cost_succ r 0]
  omega

theorem higher_priority_false {y a : htree} (h : htree_higher_priority y a = false) :
    a.freq ≤ y.freq := by
  simp only [htree_higher_priority] at h
  by_contra hlt
  rw [if_pos (by omega)] at h
  cases h

/-- The merging loop is optimal as long as no frequency sum wraps around: the result
costs no more than the trees already built plus any code tree over their weights. -/
theorem merges_to_optimal {M : Multiset htree} {H : htree} (h : merges_to M H) :
    (∀ t ∈ M, t.is_null = false ∧ t.freq = weight t) →
    (M.map weight).sum < UINT_MOD →
    ∀ (P : Multiset (Nat × Nat)) (c : code_tree),
      P.map Prod.snd = code_tree.depth_multiset 0 c → P.map Prod.fst = M.map htree.freq →
      weighted_path_length H ≤ (M.map weighted_path_length).sum + pairs_cost P := by
  induction h with
  | last t =>
    intro _ _ P c _ _
    simp
  | step M M2 a b H hM hfirst hsecond _ ih =>
    intro hinv hsum P c hc hW
    subst hM
    obtain ⟨han, haw⟩ := hinv a (by simp)
    obtain ⟨hbn, hbw⟩ := hinv b (by simp)
    simp only [Multiset.map_cons, Multiset.sum_cons] at hsum hW
    have hmod : (a.freq + b.freq) % UINT_MOD = a.freq + b.freq := by
      apply Nat.mod_eq_of_lt
      rw [haw, hbw]
      omega
    obtain ⟨P2, c2, hc2, hW2, hcost⟩ := merge_two_least P c a.freq b.freq
      (M2.map htree.freq) hc hW
      (by
        intro w hw
        rw [← Multiset.map_cons htree.freq, ← Multiset.map_cons htree.freq] at hw
        obtain ⟨y, hy, rfl⟩ := Multiset.mem_map.mp hw
        exact higher_priority_false (hfirst y hy))
      (by
        intro w hw
        rw [← Multiset.map_cons htree.freq] at hw
        obtain ⟨y, hy, rfl⟩ := Multiset.mem_map.mp hw
        exact higher_priority_false (hsecond y hy))
    have hinv2 : ∀ t ∈ node 0 ((a.freq + b.freq) % UINT_MOD) a b ::ₘ M2,
        t.is_null = false ∧ t.freq = weight t := by
      intro t ht
      rcases Multiset.mem_cons.mp ht with rfl | ht
      · refine ⟨rfl, ?_⟩
        rw [weight_node_of_child han, ← haw, ← hbw]
        exact hmod
      · exact hinv t (by simp [ht])
    have hsum2 : ((node 0 ((a.freq + b.freq) % UINT_MOD) a b ::ₘ M2).map weight).sum
        < UINT_MOD := by
      simp only [Multiset.map_cons, Multiset.sum_cons, weight_node_of_child han]
      omega
    have hf : (node 0 ((a.freq + b.freq) % UINT_MOD) a b).freq = a.freq + b.freq := hmod
    have hres := ih hinv2 hsum2 P2 c2 hc2 (by rw [Multiset.map_cons, hW2, hf])
    simp only [Multiset.map_cons, Multiset.sum_cons, weighted_path_length_node han] at hres ⊢
    omega

theorem is_freqtable_of_table_sum {table : freqtable_t} (h : table_sum table < UINT_MOD) :
    is_freqtable table := by
  intro a
  have hle : table a ≤ table_sum table :=
    List.le_sum_of_mem (List.mem_map_of_mem table (List.mem_finRange a))
  omega

theorem nonzero_sum_le_table_sum (table : freqtable_t) :
    ((nonzero_symbols table).map table).sum ≤ table_sum table :=
  ((List.filter_sublist _).map table).sum_le_sum (fun _ _ => Nat.zero_le _)

theorem build_htree_optimal (P : pq_service) (table : freqtable_t)
    (hsum : table_sum table < UINT_MOD) (h2 : 2 ≤ (nonzero_symbols table).length) :
    ∃ H, build_htree P table = .ok H ∧
      (leaves H).Perm ((nonzero_symbols table).map (fun a => (a, table a))) ∧
      ∀ c : code_tree, c.symbols.Perm (nonzero_symbols table) →
        weighted_path_length H ≤ c.weighted_path_length table := by
  have hft := is_freqtable_of_table_sum hsum
  obtain ⟨H, hH, _, _, hp, hm⟩ := build_htree_spec P table hft h2
  refine ⟨H, hH, hp, ?_⟩
  intro c hc
  have hmodt : ∀ a, table a % UINT_MOD = table a := fun a => Nat.mod_eq_of_lt (hft a)
  have hweight : ∀ a ∈ nonzero_symbols table, weight (new_leaf table a) = table a := by
    intro a ha
    simp [weight, leaves_new_leaf hft (mem_nonzero_symbols.mp ha)]
  have hinv : ∀ t ∈ Multiset.ofList ((nonzero_symbols table).map (new_leaf table)),
      t.is_null = false ∧ t.freq = weight t := by
    intro t ht
    simp only [Multiset.mem_coe, List.mem_map] at ht
    obtain ⟨a, ha, rfl⟩ := ht
    refine ⟨rfl, ?_⟩
    rw [hweight a ha]
    exact hmodt a
  have hwsum : ((Multiset.ofList ((nonzero_symbols table).map (new_leaf table))).map
      weight).sum < UINT_MOD := by
    have hmap : (nonzero_symbols table).map (weight ∘ new_leaf table)
        = (nonzero_symbols table).map table :=
      List.map_congr_left (fun a ha => hweight a ha)
    rw [Multiset.map_coe, Multiset.sum_coe, List.map_map, hmap]
    exact Nat.lt_of_le_of_lt (nonzero_sum_le_table_sum table) hsum
  have hzero : ((Multiset.ofList ((nonzero_symbols table).map (new_leaf table))).map
      weighted_path_length).sum = 0 := by
    rw [Multiset.map_coe, Multiset.sum_coe, List.map_map]
    apply List.sum_eq_zero
    intro x hx
    obtain ⟨a, ha, rfl⟩ := List.mem_map.mp hx
    have hleaf : is_htree_leaf (node a (table a) NULL NULL) = true :=
      (is_htree_leaf_iff _ _ _ _).mpr ⟨mem_nonzero_symbols.mp ha, rfl, rfl⟩
    simp [weighted_path_length, new_leaf, hmodt, leaf_depths, hleaf]
  have hres := merges_to_optimal hm hinv hwsum
    (Multiset.ofList ((code_tree.depths_from 0 c).map (fun x => (table x.1, x.2)))) c
    (by
      rw [Multiset.map_coe, List.map_map]
      rfl)
    (by
      rw [Multiset.map_coe, Multiset.map_coe, List.map_map, List.map_map,
        Multiset.coe_eq_coe]
      have h1 : ((code_tree.depths_from 0 c).map (Prod.fst ∘ fun x => (table x.1, x.2)))
          = c.symbols.map table := by
        simp [code_tree.symbols, List.map_map, Function.comp_def]
      have h2 : (nonzero_symbols table).map (htree.freq ∘ new_leaf table)
          = (nonzero_symbols table).map table :=
        List.map_congr_left (fun a _ => hmodt a)
      rw [h1, h2]
      exact hc.map table)
  rw [hzero, Nat.zero_add] at hres
  have hcost : pairs_cost
      (Multiset.ofList ((code_tree.depths_from 0 c).map (fun x => (table x.1, x.2))))
      = c.weighted_path_length table := by
    simp [pairs_cost, code_tree.weighted_path_length, List.map_map, Function.comp_def]
  rw [hcost] at hres
  exact hres

theorem is_freqtable_freq_wrap : is_freqtable freq_wrap := by
  intro a
  unfold freq_wrap
  split_ifs <;> decide

set_option maxRecDepth 100000 in
theorem nonzero_symbols_freq_wrap : nonzero_symbols freq_wrap = [0, 1, 2, 3] := by
  decide

set_option maxRecDepth 100000 in
theorem build_htree_freq_wrap : build_htree list_pq freq_wrap = .ok tree_wrap := by
  decide

/-- C5 (as stated, refuted). The table `freq_wrap` has four entries `2^31`. With the
list priority queue `build_htree` returns `tree_wrap`, whose leaves lie at depths 3, 3,
2 and 1, of weighted path length `9 * 2^31`, because the sum `2^31 + 2^31` of the first
merged node wraps around to `0` in `unsigned int`; the code tree with all four symbols
at depth 2 has weighted path length `8 * 2^31`. -/
theorem C5_counterexample_frequency_wraps :
    is_freqtable freq_wrap ∧ 2 ≤ (nonzero_symbols freq_wrap).length ∧
    build_htree list_pq freq_wrap = .ok tree_wrap ∧
    balanced_code.symbols.Perm (nonzero_symbols freq_wrap) ∧
    weighted_path_length tree_wrap = 19327352832 ∧
    balanced_code.weighted_path_length freq_wrap = 17179869184 ∧
    balanced_code.weighted_path_length freq_wrap < weighted_path_length tree_wrap := by
  refine ⟨is_freqtable_freq_wrap, ?_, build_htree_freq_wrap, ?_, by decide, by decide,
    by decide⟩
  · rw [nonzero_symbols_freq_wrap]
    decide
  · rw [nonzero_symbols_freq_wrap]
    decide

/-- C5 (amended). Optimality: for every frequency table with at least two non-zero
entries whose entries sum to less than `2^32` (so that no frequency sum wraps around in
`unsigned int`), `build_htree` returns a tree whose leaves are exactly the symbols of
non-zero frequency with their frequencies, and whose weighted path length (sum over
leaves of frequency times depth) is at most that of every binary tree whose leaves are
exactly the symbols of non-zero frequency. -/
theorem C5_build_htree_is_optimal_without_wraparound (P : pq_service) (table : freqtable_t)
    (hsum : table_sum table < UINT_MOD) (h2 : 2 ≤ (nonzero_symbols table).length) :
    ∃ H, build_htree P table = .ok H ∧
      (leaves H).Perm ((nonzero_symbols table).map (fun a => (a, table a))) ∧
      ∀ c : code_tree, c.symbols.Perm (nonzero_symbols table) →
        weighted_path_length H ≤ c.weighted_path_length table :=
  build_htree_optimal P table hsum h2

set_option maxRecDepth 100000 in
theorem table_sum_freq_AB : table_sum freq_AB = 7 := by
  decide

theorem C5_witness :
    table_sum freq_AB < UINT_MOD ∧ 2 ≤ (nonzero_symbols freq_AB).length ∧
    ∃ H, build_htree list_pq freq_AB = .ok H ∧
      (leaves H).Perm ((nonzero_symbols freq_AB).map (fun a => (a, freq_AB a))) ∧
      ∀ c : code_tree, c.symbols.Perm (nonzero_symbols freq_AB) →
        weighted_path_length H ≤ c.weighted_path_length freq_AB :=
  ⟨by rw [table_sum_freq_AB]; decide, by rw [nonzero_symbols_freq_AB]; decide,
    C5_build_htree_is_optimal_without_wraparound list_pq freq_AB
      (by rw [table_sum_freq_AB]; decide) (by rw [nonzero_symbols_freq_AB]; decide)⟩

/-! ## The encoder on a symbol without a code -/

theorem encode_len_error (T : codetable_t) (s : List symbol_t) :
    (∃ a ∈ s, T a = none) → ∀ n, encode_len T s n = .error .null_dereference := by
  induction s with
  | nil => rintro ⟨a, ha, _⟩; simp at ha
  | cons a s ih =>
    rintro ⟨b, hb, hT⟩ n
    cases hTa : T a with
    | none => simp [encode_len, hTa]
    | some code =>
      simp only [encode_len, hTa]
      apply ih
      rcases List.mem_cons.mp hb with rfl | hb
      · rw [hTa] at hT; cases hT
      · exact ⟨b, hb, hT⟩

theorem encode_src_error (T : codetable_t) (s : List symbol_t) (h : ∃ a ∈ s, T a = none) :
    encode_src T s s.length = .error .null_dereference := by
  simp [encode_src, encode_len_error T s h 0]

/-- C11 (as stated, refuted). With a table that has no entry for symbol 0, `encode_src`
on the input `[0]` fails by a dereference of the null entry in `strlen`; the code has
no check of its own and raises no `SymbolNotInTable` error. -/
theorem C11_counterexample_null_entry_is_dereferenced :
    encode_src (fun _ => none) [0] 1 = .error .null_dereference ∧
    encode_src (fun _ => none) [0] 1 ≠ .error .SymbolNotInTable := by
  decide

/-- C11 (amended). `encode_src` fails, by a dereference of a null table entry, if and
only if some symbol of the input sequence has no entry in the code table; for such an
input it never produces a bit-string. -/
theorem C11_encode_fails_iff_symbol_without_code (T : codetable_t) (s : List symbol_t) :
    (encode_src T s s.length = .error .null_dereference ↔ ∃ a ∈ s, T a = none) ∧
    ((∃ a ∈ s, T a = none) → ∀ code, encode_src T s s.length ≠ .ok code) := by
  refine ⟨⟨?_, encode_src_error T s⟩, ?_⟩
  · intro he
    by_contra hno
    have hall : ∀ a ∈ s, T a ≠ none := fun a ha hT => hno ⟨a, ha, hT⟩
    rw [encode_src_eq T s hall] at he
    cases he
  · intro h code hc
    rw [encode_src_error T s h] at hc
    cases hc

theorem C11_witness :
    (encode_src table_AB [65, 7] [(65 : symbol_t), 7].length = .error .null_dereference
      ↔ ∃ a ∈ [(65 : symbol_t), 7], table_AB a = none) ∧
    ((∃ a ∈ [(65 : symbol_t), 7], table_AB a = none) →
      ∀ code, encode_src table_AB [65, 7] [(65 : symbol_t), 7].length ≠ .ok code) :=
  C11_encode_fails_iff_symbol_without_code table_AB [65, 7]

/-! ## Concrete packing -/

/-- C15. Concrete packing example: `pack("111")` is the single byte `0xE0`, and `unpack`
of that one byte (count 1) is the bit-string `"11100000"`. -/
theorem C15_pack_111 :
    pack ['1', '1', '1'] = [0xE0] ∧
    unpack [0xE0] 1 = .ok ['1', '1', '1', '0', '0', '0', '0', '0'] := by
  decide

/-! ## The minimum alphabet -/

theorem build_and_codes_of_pair (P : pq_service) (table : freqtable_t) (x y : symbol_t)
    (hxy : x ≠ y) (hx : table x = 3) (hy : table y = 5)
    (h0 : ∀ a, a ≠ x → a ≠ y → table a = 0) :
    build_htree P table = .ok (node 0 8 (node x 3 NULL NULL) (node y 5 NULL NULL)) ∧
    ∃ T, htree_to_codetable (node 0 8 (node x 3 NULL NULL) (node y 5 NULL NULL)) = .ok T ∧
      T x = some ['0'] ∧ T y = some ['1'] := by
  have hft : is_freqtable table := by
    intro a
    by_cases hax : a = x
    · rw [hax, hx]; decide
    · by_cases hay : a = y
      · rw [hay, hy]; decide
      · rw [h0 a hax hay]; decide
  have hp : (nonzero_symbols table).Perm [x, y] := by
    apply nonzero_symbols_perm_pair table x y hxy
    intro a
    constructor
    · intro ha
      by_contra hno
      rw [not_or] at hno
      exact ha (h0 a hno.1 hno.2)
    · rintro (rfl | rfl)
      · rw [hx]; decide
      · rw [hy]; decide
  have hbuild := build_htree_two P table hft x y hp (by rw [hx, hy]; decide)
  rw [hx, hy, show (3 + 5) % UINT_MOD = 8 from rfl] at hbuild
  have hv : is_htree (node 0 8 (node x 3 NULL NULL) (node y 5 NULL NULL)) = true := by
    simp [is_htree, is_htree_leaf, htree.is_null, htree.freq, UINT_MOD]
  have hlp : leaf_paths (node 0 8 (node x 3 NULL NULL) (node y 5 NULL NULL))
      = [(x, ['0']), (y, ['1'])] := by
    simp [leaf_paths, is_htree_leaf, htree.is_null]
  refine ⟨hbuild, _, htree_to_codetable_eq hv, ?_, ?_⟩
  · rw [hlp]
    exact store_codes_of_nodup _ _ (by simp [hxy]) x _ (by simp)
  · rw [hlp]
    exact store_codes_of_nodup _ _ (by simp [hxy]) y _ (by simp)

/-- C16. Minimum alphabet: for every frequency table whose only non-zero entries are
`3` and `5`, at two distinct symbols `x` and `y`, `build_htree` returns an interior root
of frequency 8 whose two children are leaves, the left one for `x` (frequency 3) and the
right one for `y` (frequency 5), and `htree_to_codetable` assigns each of the two
symbols a code of length exactly 1. -/
theorem C16_two_symbols_get_one_bit_codes (P : pq_service) (table : freqtable_t)
    (x y : symbol_t) (hxy : x ≠ y) (hx : table x = 3) (hy : table y = 5)
    (h0 : ∀ a, a ≠ x → a ≠ y → table a = 0) :
    ∃ H T cx cy, build_htree P table = .ok H ∧
      H = node 0 8 (node x 3 NULL NULL) (node y 5 NULL NULL) ∧
      is_htree_interior H = true ∧
      is_htree_leaf (node x 3 NULL NULL) = true ∧ is_htree_leaf (node y 5 NULL NULL) = true ∧
      htree_to_codetable H = .ok T ∧ T x = some cx ∧ T y = some cy ∧
      cx.length = 1 ∧ cy.length = 1 := by
  obtain ⟨hb, T, hT, hTx, hTy⟩ := build_and_codes_of_pair P table x y hxy hx hy h0
  refine ⟨_, T, ['0'], ['1'], hb, rfl, ?_, ?_, ?_, hT, hTx, hTy, rfl, rfl⟩
  · simp [is_htree_interior, is_htree, is_htree_leaf, htree.is_null, htree.freq, UINT_MOD]
  · simp [is_htree_leaf, htree.is_null]
  · simp [is_htree_leaf, htree.is_null]

theorem freq_35_zero : ∀ a : symbol_t, a ≠ 65 → a ≠ 66 → freq_35 a = 0 := by
  intro a h1 h2
  simp [freq_35, h1, h2]

theorem C16_witness :
    (65 : symbol_t) ≠ 66 ∧ freq_35 65 = 3 ∧ freq_35 66 = 5 ∧
    (∀ a : symbol_t, a ≠ 65 → a ≠ 66 → freq_35 a = 0) ∧
    ∃ H T cx cy, build_htree list_pq freq_35 = .ok H ∧
      H = node 0 8 (node 65 3 NULL NULL) (node 66 5 NULL NULL) ∧
      is_htree_interior H = true ∧
      is_htree_leaf (node 65 3 NULL NULL) = true ∧
      is_htree_leaf (node 66 5 NULL NULL) = true ∧
      htree_to_codetable H = .ok T ∧ T 65 = some cx ∧ T 66 = some cy ∧
      cx.length = 1 ∧ cy.length = 1 :=
  ⟨by decide, by decide, by decide, freq_35_zero,
    C16_two_symbols_get_one_bit_codes list_pq freq_35 65 66 (by decide) (by decide)
      (by decide) freq_35_zero⟩

/-! ## The leaves and the frequencies of the tree that is built -/

/-- C18. Leaves of the built tree: for every frequency table (of `unsigned int`
counters) with at least two non-zero entries, the leaves of `build_htree(table)`, read
as (symbol, frequency) pairs, are exactly the pairs `(s, table[s])` with `table[s]`
non-zero, each occurring exactly once; no symbol of zero frequency appears as a leaf. -/
theorem C18_leaves_are_the_nonzero_entries (P : pq_service) (table : freqtable_t)
    (hft : is_freqtable table) (h2 : 2 ≤ (nonzero_symbols table).length) :
    ∃ H, build_htree P table = .ok H ∧
      (leaves H).Perm ((nonzero_symbols table).map (fun a => (a, table a))) ∧
      (leaves H).Nodup ∧
      (∀ a f, (a, f) ∈ leaves H ↔ table a ≠ 0 ∧ f = table a) ∧
      (∀ a, table a = 0 → a ∉ (leaves H).map Prod.fst) := by
  obtain ⟨H, hH, _, _, hp, _⟩ := build_htree_spec P table hft h2
  have hmem : ∀ a f, (a, f) ∈ leaves H ↔ table a ≠ 0 ∧ f = table a := by
    intro a f
    rw [hp.mem_iff, List.mem_map]
    constructor
    · rintro ⟨b, hb, heq⟩
      rw [Prod.mk.injEq] at heq
      obtain ⟨rfl, rfl⟩ := heq
      exact ⟨mem_nonzero_symbols.mp hb, rfl⟩
    · rintro ⟨ha, rfl⟩
      exact ⟨a, mem_nonzero_symbols.mpr ha, rfl⟩
  refine ⟨H, hH, hp, ?_, hmem, ?_⟩
  · rw [hp.nodup_iff]
    exact (nonzero_symbols_nodup table).map (fun a b h => congrArg Prod.fst h)
  · intro a ha hin
    obtain ⟨x, hx, rfl⟩ := List.mem_map.mp hin
    exact ((hmem x.1 x.2).mp hx).1 ha

theorem C18_witness :
    is_freqtable freq_AB ∧ 2 ≤ (nonzero_symbols freq_AB).length ∧
    ∃ H, build_htree list_pq freq_AB = .ok H ∧
      (leaves H).Perm ((nonzero_symbols freq_AB).map (fun a => (a, freq_AB a))) ∧
      (leaves H).Nodup ∧
      (∀ a f, (a, f) ∈ leaves H ↔ freq_AB a ≠ 0 ∧ f = freq_AB a) ∧
      (∀ a, freq_AB a = 0 → a ∉ (leaves H).map Prod.fst) :=
  ⟨is_freqtable_freq_AB, by rw [nonzero_symbols_freq_AB]; decide,
    C18_leaves_are_the_nonzero_entries list_pq freq_AB is_freqtable_freq_AB
      (by rw [nonzero_symbols_freq_AB]; decide)⟩

theorem nodes_exact_merge {a b : htree} (ha : a.is_null = false) (hb : b.is_null = false)
    (hae : nodes_exact a = true) (hbe : nodes_exact b = true) :
    nodes_exact (node 0 (a.freq + b.freq) a b) = true := by
  simp [nodes_exact, ha, hb, hae, hbe]

theorem merges_to_exact {M : Multiset htree} {H : htree} (h : merges_to M H) :
    (∀ t ∈ M, t.is_null = false ∧ nodes_exact t = true ∧ t.freq = weight t) →
    (M.map weight).sum < UINT_MOD →
    nodes_exact H = true ∧ H.freq = weight H ∧ weight H = (M.map weight).sum := by
  induction h with
  | last t =>
    intro hinv _
    obtain ⟨_, h2, h3⟩ := hinv t (Multiset.mem_singleton_self t)
    exact ⟨h2, h3, by simp⟩
  | step M M2 a b H hM _ _ _ ih =>
    intro hinv hsum
    subst hM
    obtain ⟨han, hae, haw⟩ := hinv a (by simp)
    obtain ⟨hbn, hbe, hbw⟩ := hinv b (by simp)
    simp only [Multiset.map_cons, Multiset.sum_cons] at hsum
    have hmod : (a.freq + b.freq) % UINT_MOD = a.freq + b.freq := by
      apply Nat.mod_eq_of_lt
      rw [haw, hbw]
      omega
    rw [hmod] at ih
    have hinv2 : ∀ t ∈ node 0 (a.freq + b.freq) a b ::ₘ M2,
        t.is_null = false ∧ nodes_exact t = true ∧ t.freq = weight t := by
      intro t ht
      rcases Multiset.mem_cons.mp ht with rfl | ht
      · refine ⟨rfl, nodes_exact_merge han hbn hae hbe, ?_⟩
        rw [weight_node_of_child han, ← haw, ← hbw]
        rfl
      · exact hinv t (by simp [ht])
    have hsum2 : ((node 0 (a.freq + b.freq) a b ::ₘ M2).map weight).sum
        = ((a ::ₘ b ::ₘ M2).map weight).sum := by
      simp only [Multiset.map_cons, Multiset.sum_cons, weight_node_of_child han]
      omega
    obtain ⟨r1, r2, r3⟩ := ih hinv2 (by
      rw [hsum2]
      simpa only [Multiset.map_cons, Multiset.sum_cons] using hsum)
    exact ⟨r1, r2, by rw [r3, hsum2]⟩

theorem sum_filter_nonzero (table : freqtable_t) (l : List symbol_t) :
    ((l.filter (fun a => table a ≠ 0)).map table).sum = (l.map table).sum := by
  induction l with
  | nil => rfl
  | cons a l ih =>
    by_cases h : table a ≠ 0
    · rw [List.filter_cons_of_pos (by simpa using h), List.map_cons, List.sum_cons, ih,
        List.map_cons, List.sum_cons]
    · rw [List.filter_cons_of_neg (by simpa using h), ih, List.map_cons, List.sum_cons]
      have h0 : table a = 0 := by simpa using h
      rw [h0, Nat.zero_add]

theorem nonzero_sum_eq_table_sum (table : freqtable_t) :
    ((nonzero_symbols table).map table).sum = table_sum table :=
  sum_filter_nonzero table _

theorem build_htree_conserves (P : pq_service) (table : freqtable_t)
    (hsum : table_sum table < UINT_MOD) (h2 : 2 ≤ (nonzero_symbols table).length) :
    ∃ H, build_htree P table = .ok H ∧ nodes_exact H = true ∧
      H.freq = ((leaves H).map Prod.snd).sum ∧
      ((leaves H).map Prod.snd).sum = table_sum table := by
  have hft := is_freqtable_of_table_sum hsum
  obtain ⟨H, hH, _, _, _, hm⟩ := build_htree_spec P table hft h2
  have hmodt : ∀ a, table a % UINT_MOD = table a := fun a => Nat.mod_eq_of_lt (hft a)
  have hweight : ∀ a ∈ nonzero_symbols table, weight (new_leaf table a) = table a := by
    intro a ha
    simp [weight, leaves_new_leaf hft (mem_nonzero_symbols.mp ha)]
  have hmap : (nonzero_symbols table).map (weight ∘ new_leaf table)
      = (nonzero_symbols table).map table :=
    List.map_congr_left (fun a ha => hweight a ha)
  have hws : ((Multiset.ofList ((nonzero_symbols table).map (new_leaf table))).map
      weight).sum = table_sum table := by
    rw [Multiset.map_coe, Multiset.sum_coe, List.map_map, hmap, nonzero_sum_eq_table_sum]
  have hinv : ∀ t ∈ Multiset.ofList ((nonzero_symbols table).map (new_leaf table)),
      t.is_null = false ∧ nodes_exact t = true ∧ t.freq = weight t := by
    intro t ht
    simp only [Multiset.mem_coe, List.mem_map] at ht
    obtain ⟨a, ha, rfl⟩ := ht
    refine ⟨rfl, ?_, ?_⟩
    · have hpos : 0 < table a := Nat.pos_of_ne_zero (mem_nonzero_symbols.mp ha)
      simp [new_leaf, hmodt, nodes_exact, htree.is_null, hpos]
    · rw [hweight a ha]
      exact hmodt a
  obtain ⟨r1, r2, r3⟩ := merges_to_exact hm hinv (by rw [hws]; exact hsum)
  exact ⟨H, hH, r1, r2, by rw [← hws, ← r3]; rfl⟩

/-- C12 (as stated, refuted). For the table `freq_wrap`, with four entries `2^31`, the
tree `tree_wrap` that `build_htree` returns has a node whose frequency is not the sum of
the frequencies of its children, its root has frequency `0`, and the entries of the
table sum to `2^33`. -/
theorem C12_counterexample_frequency_wraps :
    is_freqtable freq_wrap ∧ 2 ≤ (nonzero_symbols freq_wrap).length ∧
    build_htree list_pq freq_wrap = .ok tree_wrap ∧
    nodes_exact tree_wrap = false ∧ tree_wrap.freq = 0 ∧
    ((leaves tree_wrap).map Prod.snd).sum = 8589934592 ∧
    table_sum freq_wrap = 8589934592 := by
  refine ⟨is_freqtable_freq_wrap, ?_, build_htree_freq_wrap, by decide, by decide,
    by decide, ?_⟩
  · rw [nonzero_symbols_freq_wrap]
    decide
  · rw [← nonzero_sum_eq_table_sum, nonzero_symbols_freq_wrap]
    decide

/-- C12 (amended). Frequency conservation: for every frequency table with at least two
non-zero entries whose entries sum to less than `2^32`, in the tree returned by
`build_htree` every node is a leaf or has the sum of the frequencies of its two
children as its frequency, and the frequency of the root equals the sum of the
frequencies of all leaves, which equals the sum of all entries of the table. -/
theorem C12_frequencies_are_conserved_without_wraparound (P : pq_service)
    (table : freqtable_t) (hsum : table_sum table < UINT_MOD)
    (h2 : 2 ≤ (nonzero_symbols table).length) :
    ∃ H, build_htree P table = .ok H ∧ nodes_exact H = true ∧
      H.freq = ((leaves H).map Prod.snd).sum ∧
      ((leaves H).map Prod.snd).sum = table_sum table :=
  build_htree_conserves P table hsum h2

theorem C12_witness :
    table_sum freq_AB < UINT_MOD ∧ 2 ≤ (nonzero_symbols freq_AB).length ∧
    ∃ H, build_htree list_pq freq_AB = .ok H ∧ nodes_exact H = true ∧
      H.freq = ((leaves H).map Prod.snd).sum ∧
      ((leaves H).map Prod.snd).sum = table_sum freq_AB :=
  ⟨by rw [table_sum_freq_AB]; decide, by rw [nonzero_symbols_freq_AB]; decide,
    C12_frequencies_are_conserved_without_wraparound list_pq freq_AB
      (by rw [table_sum_freq_AB]; decide) (by rw [nonzero_symbols_freq_AB]; decide)⟩

/-! ## The invariant checker, characterised -/

theorem is_htree_iff_nodes_modular (H : htree) :
    is_htree H = true ↔ H.is_null = false ∧ nodes_modular H = true := by
  induction H with
  | NULL => simp [is_htree, htree.is_null]
  | node v f l r ihl ihr =>
    cases l with
    | NULL =>
      cases r with
      | NULL =>
        simp [is_htree, nodes_modular, is_htree_leaf, htree.is_null, Nat.pos_iff_ne_zero]
      | node v2 f2 l2 r2 =>
        simp [is_htree, nodes_modular, is_htree_leaf, htree.is_null]
    | node v1 f1 l1 r1 =>
      cases r with
      | NULL =>
        simp [is_htree, nodes_modular, is_htree_leaf, htree.is_null]
      | node v2 f2 l2 r2 =>
        have hl : is_htree (node v1 f1 l1 r1) = true
            ↔ nodes_modular (node v1 f1 l1 r1) = true := by
          rw [ihl]; simp [htree.is_null]
        have hr : is_htree (node v2 f2 l2 r2) = true
            ↔ nodes_modular (node v2 f2 l2 r2) = true := by
          rw [ihr]; simp [htree.is_null]
        rw [is_htree, nodes_modular]
        simp only [htree.is_null, is_htree_leaf, htree.freq]
        cases h1 : is_htree (node v1 f1 l1 r1) <;>
        cases h2 : is_htree (node v2 f2 l2 r2) <;>
        cases h3 : nodes_modular (node v1 f1 l1 r1) <;>
        cases h4 : nodes_modular (node v2 f2 l2 r2) <;>
        simp_all

theorem not_leaf_and_interior (H : htree) :
    ¬ (is_htree_leaf H = true ∧ is_htree_interior H = true) := by
  rintro ⟨h1, h2⟩
  obtain ⟨v, f, rfl, _⟩ := leaf_shape h1
  simp [is_htree_interior, htree.is_null] at h2

/-- C13 (as stated, refuted). The tree `node_wrap` satisfies `is_htree`, but the
frequency `0` of its root is not exactly the sum `2^31 + 2^31` of the frequencies of its
children: `is_htree` compares with the sum in `unsigned int`. -/
theorem C13_counterexample_sum_is_modular :
    is_htree node_wrap = true ∧ node_wrap.is_null = false ∧ nodes_exact node_wrap = false := by
  decide

/-- C13 (amended). Invariant checker characterisation: `is_htree(H)` returns true if and
only if `H` is non-null and every node of `H` is either a leaf (no children, frequency
strictly positive) or an interior node with two non-null children whose frequency is
`left.frequency + right.frequency` modulo `2^32`; and no node satisfies both
`is_htree_leaf` and `is_htree_interior`. -/
theorem C13_is_htree_characterisation (H : htree) :
    (is_htree H = true ↔ H.is_null = false ∧ nodes_modular H = true) ∧
    ¬ (is_htree_leaf H = true ∧ is_htree_interior H = true) :=
  ⟨is_htree_iff_nodes_modular H, not_leaf_and_interior H⟩

/-! ## The layout of the packed bytes -/

theorem unpack_byte_eq (j : Nat) :
    ∀ (now : Nat) (out : List bit_t),
      unpack_byte j now out
        = (List.range j).map (fun k => bit_char (now.testBit (j - 1 - k))) ++ out := by
  induction j with
  | zero => intro now out; rfl
  | succ j ih =>
    intro now out
    have hc : (if now % 2 = 1 then '1' else '0') = bit_char (now.testBit 0) := by
      rw [Nat.testBit_zero, bit_char]
      by_cases h : now % 2 = 1 <;> simp [h]
    simp only [unpack_byte, ih, hc]
    rw [List.range_succ, List.map_append, List.append_assoc]
    congr 1
    · apply List.map_congr_left
      intro k hk
      have hk2 : k < j := List.mem_range.mp hk
      have e : j + 1 - 1 - k = (j - 1 - k) + 1 := by omega
      rw [e, Nat.testBit_succ]
    · simp

theorem unpack_byte_length (now : Nat) : (unpack_byte 8 now []).length = 8 := by
  rw [unpack_byte_eq]
  simp

theorem unpack_byte_get (now j : Nat) (hj : j < 8) :
    (unpack_byte 8 now [])[j]? = some (bit_char (now.testBit (7 - j))) := by
  rw [unpack_byte_eq, List.append_nil, List.getElem?_map, List.getElem?_range hj]
  rfl

theorem unpack_byte_is_bitstring (now : Nat) : is_bitstring (unpack_byte 8 now []) := by
  intro c hc
  rw [unpack_byte_eq, List.append_nil, List.mem_map] at hc
  obtain ⟨k, _, rfl⟩ := hc
  unfold bit_char
  split
  · exact Or.inr rfl
  · exact Or.inl rfl

theorem unpack_loop_cons (now : Nat) (c : List Nat) (out : List bit_t)
    (h : unpack_loop c c.length = .ok out) :
    unpack_loop (now :: c) (now :: c).length = .ok (unpack_byte 8 now [] ++ out) := by
  simp [unpack_loop, h]

theorem unpack_loop_returns (c : List Nat) : ∃ out, unpack_loop c c.length = .ok out := by
  induction c with
  | nil => exact ⟨[], rfl⟩
  | cons now c ih =>
    obtain ⟨out, h⟩ := ih
    exact ⟨_, unpack_loop_cons now c out h⟩

theorem unpack_loop_spec (c : List Nat) :
    ∀ out, unpack_loop c c.length = .ok out →
      out.length = 8 * c.length ∧ is_bitstring out ∧
      ∀ j, j < 8 * c.length → out[j]? = some (bit_char (bit_at c j)) := by
  induction c with
  | nil =>
    intro out h
    have : out = [] := by simpa [unpack_loop] using h.symm
    subst this
    exact ⟨rfl, by intro c hc; simp at hc, by intro j hj; simp at hj⟩
  | cons now c ih =>
    intro out h
    obtain ⟨out1, h1⟩ := unpack_loop_returns c
    rw [unpack_loop_cons now c out1 h1] at h
    have hout := (Except.ok.inj h).symm
    subst hout
    obtain ⟨hlen, hbits, hget⟩ := ih out1 h1
    refine ⟨?_, ?_, ?_⟩
    · rw [List.length_append, unpack_byte_length, hlen, List.length_cons]
      omega
    · exact is_bitstring_append.mpr ⟨unpack_byte_is_bitstring now, hbits⟩
    · intro j hj
      rw [List.length_cons] at hj
      by_cases h8 : j < 8
      · rw [List.getElem?_append_left (by rw [unpack_byte_length]; exact h8),
          unpack_byte_get now j h8]
        have e1 : j / 8 = 0 := Nat.div_eq_of_lt h8
        have e2 : j % 8 = j := Nat.mod_eq_of_lt h8
        simp [bit_at, e1, e2]
      · rw [List.getElem?_append_right (by rw [unpack_byte_length]; omega),
          unpack_byte_length, hget (j - 8) (by omega)]
        have e1 : j / 8 = (j - 8) / 8 + 1 := by omega
        have e2 : j % 8 = (j - 8) % 8 := by omega
        simp [bit_at, e1, e2]

theorem bit_char_eq_one (b : Bool) : bit_char b = '1' ↔ b = true := by
  cases b <;> simp [bit_char]

theorem bit_char_eq_zero (b : Bool) : bit_char b = '0' ↔ b = false := by
  cases b <;> simp [bit_char]

/-- C14. Packed layout: for every string `b` of characters `'0'` and `'1'`, `pack(b)`
has exactly `ceil(len(b)/8)` bytes; for every `i < len(b)`, bit `7 - i mod 8` of byte
`i div 8` is 1 exactly when `b[i]` is `'1'`; and every bit of the last byte beyond
position `len(b) - 1` is 0. -/
theorem C14_pack_layout (b : List bit_t) (hb : is_bitstring b) :
    (pack b).length = (b.length + 7) / 8 ∧ (∀ x ∈ pack b, x < 256) ∧
    (∀ i, i < b.length → (bit_at (pack b) i = true ↔ b[i]? = some '1')) ∧
    (∀ j, b.length ≤ j → j < 8 * ((b.length + 7) / 8) → bit_at (pack b) j = false) := by
  obtain ⟨hlen, hlt, hun⟩ := pack_spec b hb
  obtain ⟨_, _, hget⟩ := unpack_loop_spec (pack b) _ hun
  rw [hlen] at hget
  refine ⟨hlen, hlt, ?_, ?_⟩
  · intro i hi
    have h1 := hget i (by omega)
    rw [List.getElem?_append_left hi] at h1
    rw [h1, Option.some.injEq, bit_char_eq_one]
  · intro j hj1 hj2
    have h1 := hget j hj2
    rw [List.getElem?_append_right hj1, List.getElem?_replicate] at h1
    split at h1
    · rw [Option.some.injEq] at h1
      exact (bit_char_eq_zero _).mp h1.symm
    · cases h1

theorem C14_witness :
    is_bitstring ['1', '0', '1'] ∧
    (pack ['1', '0', '1']).length = ([('1' : bit_t), '0', '1'].length + 7) / 8 ∧
    (∀ x ∈ pack ['1', '0', '1'], x < 256) ∧
    (∀ i, i < [('1' : bit_t), '0', '1'].length →
      (bit_at (pack ['1', '0', '1']) i = true ↔ [('1' : bit_t), '0', '1'][i]? = some '1')) ∧
    (∀ j, [('1' : bit_t), '0', '1'].length ≤ j →
      j < 8 * (([('1' : bit_t), '0', '1'].length + 7) / 8) →
      bit_at (pack ['1', '0', '1']) j = false) :=
  ⟨by simp [is_bitstring], C14_pack_layout ['1', '0', '1'] (by simp [is_bitstring])⟩

/-! ## Packing an unpacked array -/

theorem bits_value_unpack_byte (j : Nat) :
    ∀ (now m : Nat), bits_value m (unpack_byte j now []) = m * 2 ^ j + now % 2 ^ j := by
  induction j with
  | zero => intro now m; simp [unpack_byte, bits_value, Nat.mod_one]
  | succ j ih =>
    intro now m
    have hsplit : unpack_byte (j + 1) now []
        = unpack_byte j (now / 2) [] ++ [bit_char (now.testBit 0)] := by
      rw [unpack_byte_eq (j + 1), unpack_byte_eq j, List.append_nil, List.append_nil,
        List.range_succ, List.map_append]
      congr 1
      · apply List.map_congr_left
        intro k hk
        have hk2 : k < j := List.mem_range.mp hk
        have e : j + 1 - 1 - k = (j - 1 - k) + 1 := by omega
        rw [e, Nat.testBit_succ]
      · simp
    have hbit : (if bit_char (now.testBit 0) = '1' then 1 else 0) = now % 2 := by
      rw [Nat.testBit_zero]
      have h2 : now % 2 = 0 ∨ now % 2 = 1 := by omega
      rcases h2 with h | h <;> simp [bit_char, h]
    rw [hsplit, bits_value_snoc, ih, hbit, pow_succ, Nat.mul_comm (2 ^ j) 2,
      Nat.mod_mul (a := 2) (b := 2 ^ j)]
    ring

theorem pack_from_unpack (c : List Nat) (hc : ∀ x ∈ c, x < 256) :
    ∀ (out : List bit_t), unpack_loop c c.length = .ok out →
    ∀ (k : Nat) (res : List Nat), res.length = k + c.length →
      pack_from k out res = res.take k ++ c := by
  induction c with
  | nil =>
    intro out h k res hres
    have : out = [] := by simpa [unpack_loop] using h.symm
    subst this
    simp only [List.length_nil, Nat.add_zero] at hres
    simp [pack_from, pack_loop, ← hres]
  | cons now c ih =>
    intro out h k res hres
    obtain ⟨out1, h1⟩ := unpack_loop_returns c
    rw [unpack_loop_cons now c out1 h1] at h
    have hout := (Except.ok.inj h).symm
    subst hout
    rw [List.length_cons] at hres
    have hv : bits_value 0 (unpack_byte 8 now []) = now := by
      rw [bits_value_unpack_byte]
      have := hc now (List.mem_cons_self _ _)
      simp
      omega
    rw [pack_from_chunk k _ _ res (unpack_byte_is_bitstring now) (unpack_byte_length now), hv,
      ih (fun x hx => hc x (List.mem_cons_of_mem _ hx)) out1 h1 (k + 1) _
        (by rw [List.length_set]; omega),
      take_succ_set res k now (by omega)]
    simp

/-- C20. Unpack then pack is the identity: for every byte array `c` of length `n`,
`unpack(c, n)` returns a string of exactly `8 * n` characters, each `'0'` or `'1'`, and
`pack` of that string is an array of `n` bytes equal to `c`. -/
theorem C20_pack_of_unpack_is_identity (c : List Nat) (hc : ∀ x ∈ c, x < 256) :
    ∃ bits, unpack c c.length = .ok bits ∧ bits.length = 8 * c.length ∧
      is_bitstring bits ∧ pack bits = c ∧ (pack bits).length = c.length := by
  obtain ⟨bits, h⟩ := unpack_loop_returns c
  obtain ⟨hlen, hbits, _⟩ := unpack_loop_spec c bits h
  have hp : pack bits = c := by
    rw [pack_eq_pack_from,
      pack_from_unpack c hc bits h 0 _ (by rw [List.length_replicate, hlen]; omega)]
    simp
  exact ⟨bits, h, hlen, hbits, hp, by rw [hp]⟩

theorem C20_witness :
    (∀ x ∈ [224, 7], x < 256) ∧
    ∃ bits, unpack [224, 7] [224, 7].length = .ok bits ∧ bits.length = 8 * [224, 7].length ∧
      is_bitstring bits ∧ pack bits = [224, 7] ∧ (pack bits).length = [224, 7].length :=
  ⟨by decide, C20_pack_of_unpack_is_identity [224, 7] (by decide)⟩

/-! ## Bits after the last complete code -/

theorem decode_fill_append (root : htree) (t : List bit_t) (b : List bit_t) :
    ∀ (cur cur1 : htree) (res res1 : List symbol_t),
      decode_cursor root b cur = .ok cur1 → decode_fill root b cur res = .ok res1 →
      decode_fill root (b ++ t) cur res = decode_fill root t cur1 res1 := by
  induction b with
  | nil =>
    intro cur cur1 res res1 h1 h2
    simp only [decode_cursor, decode_fill, Except.ok.injEq] at h1 h2
    rw [List.nil_append, h1, h2]
  | cons c b ih =>
    intro cur cur1 res res1 h1 h2
    rw [List.cons_append]
    simp only [decode_cursor, decode_fill] at h1 h2 ⊢
    cases hm : decode_move c cur with
    | error e => simp [hm] at h1
    | ok cur2 =>
      simp only [hm] at h1 h2 ⊢
      by_cases hl : is_htree_leaf cur2 = true
      · simp only [hl, if_true] at h1 h2 ⊢
        cases hv : htree_value cur2 with
        | error e => simp [hv] at h2
        | ok v =>
          simp only [hv] at h2 ⊢
          exact ih _ _ _ _ h1 h2
      · simp only [hl, Bool.false_eq_true, if_false] at h1 h2 ⊢
        exact ih _ _ _ _ h1 h2

theorem decode_count_append (root : htree) (t : List bit_t) (b : List bit_t) :
    ∀ (cur cur1 : htree) (n n1 : Nat),
      decode_cursor root b cur = .ok cur1 → decode_count root b cur n = .ok n1 →
      decode_count root (b ++ t) cur n = decode_count root t cur1 n1 := by
  induction b with
  | nil =>
    intro cur cur1 n n1 h1 h2
    simp only [decode_cursor, decode_count, Except.ok.injEq] at h1 h2
    rw [List.nil_append, h1, h2]
  | cons c b ih =>
    intro cur cur1 n n1 h1 h2
    rw [List.cons_append]
    simp only [decode_cursor, decode_count] at h1 h2 ⊢
    cases hm : decode_move c cur with
    | error e => simp [hm] at h1
    | ok cur2 =>
      simp only [hm] at h1 h2 ⊢
      by_cases hl : is_htree_leaf cur2 = true
      · simp only [hl, if_true] at h1 h2 ⊢
        exact ih _ _ _ _ h1 h2
      · simp only [hl, Bool.false_eq_true, if_false] at h1 h2 ⊢
        exact ih _ _ _ _ h1 h2

theorem decode_without_leaf (root : htree) (t : List bit_t) :
    ∀ (cur : htree), is_htree cur = true → is_htree_leaf cur = false →
      (∀ x ∈ decode_cursors root t cur, ∀ n, x = .ok n → is_htree_leaf n = false) →
      ∀ (res : List symbol_t) (k : Nat),
        decode_fill root t cur res = .ok res ∧ decode_count root t cur k = .ok k := by
  induction t with
  | nil => intro cur _ _ _ res k; exact ⟨rfl, rfl⟩
  | cons c t ih =>
    intro cur hv hl hno res k
    obtain ⟨cur1, hm, hv1⟩ := decode_move_interior c hv hl
    have hl1 : is_htree_leaf cur1 = false :=
      hno (.ok cur1) (by simp [decode_cursors, hm]) cur1 rfl
    have hno1 : ∀ x ∈ decode_cursors root t cur1, ∀ n, x = .ok n → is_htree_leaf n = false := by
      intro x hx
      apply hno x
      simp [decode_cursors, hm, hl1, hx]
    simp only [decode_fill, decode_count, hm, hl1, Bool.false_eq_true, if_false]
    exact ih cur1 hv1 hl1 hno1 res k

theorem decode_src_parts {H : htree} {code : List bit_t} {r : List symbol_t × Nat}
    (h : decode_src H code = .ok r) :
    decode_count H code H 0 = .ok r.2 ∧ decode_fill H code H [] = .ok r.1 := by
  unfold decode_src at h
  cases hc : decode_count H code H 0 with
  | error e => rw [hc] at h; cases h
  | ok n =>
    cases hf : decode_fill H code H [] with
    | error e => rw [hc, hf] at h; cases h
    | ok res =>
      rw [hc, hf] at h
      have := Except.ok.inj h
      rw [← this]
      exact ⟨rfl, rfl⟩

/-- C17. Trailing bits are discarded: for every tree `H` satisfying `is_htree` whose
root is not a leaf, every string `b` whose decoding ends with the cursor back at the
root, and every string `t` whose walk from the root never reaches a leaf,
`decode_src(H, b ++ t)` returns the same symbols and the same count as
`decode_src(H, b)`, and both calls return. -/
theorem C17_trailing_bits_are_discarded (H : htree) (hv : is_htree H = true)
    (hl : is_htree_leaf H = false) (b t : List bit_t)
    (hb : decode_cursor H b H = .ok H)
    (ht : ∀ x ∈ decode_cursors H t H, ∀ n, x = .ok n → is_htree_leaf n = false) :
    ∃ r, decode_src H b = .ok r ∧ decode_src H (b ++ t) = .ok r := by
  obtain ⟨r, hr⟩ := decode_src_returns H hv hl b
  obtain ⟨hc, hf⟩ := decode_src_parts hr
  obtain ⟨h1, h2⟩ := decode_without_leaf H t H hv hl ht r.1 r.2
  refine ⟨r, hr, ?_⟩
  simp only [decode_src, decode_count_append H t b H H 0 r.2 hb hc,
    decode_fill_append H t b H H [] r.1 hb hf, h1, h2]

theorem C17_witness :
    is_htree tree_ABC = true ∧ is_htree_leaf tree_ABC = false ∧
    decode_cursor tree_ABC ['0'] tree_ABC = .ok tree_ABC ∧
    (∀ x ∈ decode_cursors tree_ABC ['1'] tree_ABC, ∀ n, x = .ok n → is_htree_leaf n = false) ∧
    ∃ r, decode_src tree_ABC ['0'] = .ok r ∧ decode_src tree_ABC (['0'] ++ ['1']) = .ok r :=
  ⟨by decide, by decide, by decide, by simp [decode_cursors, decode_move, tree_ABC, is_htree_leaf, htree.is_null],
    C17_trailing_bits_are_discarded tree_ABC (by decide) (by decide) ['0'] ['1'] (by decide)
      (by simp [decode_cursors, decode_move, tree_ABC, is_htree_leaf, htree.is_null])⟩

/-! ## The whole pipeline -/

theorem decode_extra (root : htree) (hroot : is_htree root = true)
    (hrl : is_htree_leaf root = false) (code : List bit_t) :
    ∀ (cur : htree) (res : List symbol_t) (n : Nat),
      is_htree cur = true → is_htree_leaf cur = false →
      ∃ extra, decode_fill root code cur res = .ok (res ++ extra) ∧
        decode_count root code cur n = .ok (n + extra.length) ∧
        extra.length ≤ code.length := by
  induction code with
  | nil => intro cur res n _ _; exact ⟨[], by simp [decode_fill], by simp [decode_count], by simp⟩
  | cons c code ih =>
    intro cur res n hc hcl
    obtain ⟨cur1, hm, hv⟩ := decode_move_interior c hc hcl
    simp only [decode_fill, decode_count, hm]
    by_cases h1 : is_htree_leaf cur1 = true
    · obtain ⟨v, hv1⟩ := htree_value_of_is_htree hv
      obtain ⟨extra, e1, e2, e3⟩ := ih root (res ++ [v]) (n + 1) hroot hrl
      refine ⟨v :: extra, ?_, ?_, ?_⟩
      · simp only [h1, if_true, hv1, e1]
        simp
      · simp only [h1, if_true, e2, List.length_cons]
        congr 1
        omega
      · simp only [List.length_cons]
        omega
    · obtain ⟨extra, e1, e2, e3⟩ := ih cur1 res n hv (by simpa using h1)
      refine ⟨extra, ?_, ?_, ?_⟩
      · simp only [h1, Bool.false_eq_true, if_false, e1]
      · simp only [h1, Bool.false_eq_true, if_false, e2]
      · simp only [List.length_cons]
        omega

theorem leaf_paths_are_bits (H : htree) : ∀ x ∈ leaf_paths H, is_bitstring x.2 := by
  induction H with
  | NULL => intro x hx; simp [leaf_paths] at hx
  | node v f l r ihl ihr =>
    intro x hx
    simp only [leaf_paths] at hx
    split at hx
    · rw [List.mem_singleton] at hx
      rw [hx]
      intro c hc
      simp at hc
    · rw [List.mem_append, List.mem_map, List.mem_map] at hx
      rcases hx with ⟨y, hy, rfl⟩ | ⟨y, hy, rfl⟩
      · intro c hc
        rcases List.mem_cons.mp hc with rfl | hc
        · exact Or.inl rfl
        · exact ihl y hy c hc
      · intro c hc
        rcases List.mem_cons.mp hc with rfl | hc
        · exact Or.inr rfl
        · exact ihr y hy c hc

theorem is_bitstring_flatMap (f : symbol_t → bitstring_t) (s : List symbol_t)
    (h : ∀ a ∈ s, is_bitstring (f a)) : is_bitstring (s.flatMap f) := by
  intro c hc
  obtain ⟨a, ha, hca⟩ := List.mem_flatMap.mp hc
  exact h a ha c hca

/-- C19. The full pipeline keeps the input as an initial segment: for every symbol
sequence `s` with at least two distinct byte values (the occurrence counts being values
of type `unsigned int`), with the tree `H` and the code table `T` built from its
frequencies and `e = encode_src(T, s)`, the call
`decode_src(H, unpack(pack(e), ceil(len(e)/8)))` returns a sequence that starts with `s`
and is longer than `s` by at most 7 symbols, and reports its length. -/
theorem C19_pipeline_output_starts_with_input (P : pq_service) (s : List symbol_t)
    (hft : is_freqtable (occurrences s)) (h2 : ∃ a ∈ s, ∃ b ∈ s, a ≠ b) :
    ∃ H T e bits out n, build_htree P (occurrences s) = .ok H ∧
      htree_to_codetable H = .ok T ∧ encode_src T s s.length = .ok e ∧
      unpack (pack e) ((e.length + 7) / 8) = .ok bits ∧
      decode_src H bits = .ok (out, n) ∧
      s <+: out ∧ out.length ≤ s.length + 7 ∧ n = out.length := by
  obtain ⟨H, hH, hv, hl, hp⟩ :=
    build_htree_symbols P (occurrences s) hft (two_le_nonzero_symbols_occurrences h2)
  have hd : ((leaf_paths H).map Prod.fst).Nodup :=
    hp.nodup_iff.mpr (nonzero_symbols_nodup _)
  have hs : ∀ a ∈ s, a ∈ (leaf_paths H).map Prod.fst :=
    fun a ha => hp.mem_iff.mpr (mem_nonzero_symbols_occurrences.mpr ha)
  obtain ⟨T, hT, hmem, he, _⟩ := symbols_round_trip H hv hl hd s hs
  have hbits : is_bitstring (s.flatMap (code_of T)) :=
    is_bitstring_flatMap _ s (fun a ha => leaf_paths_are_bits H _ (hmem a ha))
  obtain ⟨hun, _, hpad, _⟩ := unpack_pack_pads (s.flatMap (code_of T)) hbits
  obtain ⟨extra, e1, e2, e3⟩ := decode_extra H hv hl
    (List.replicate (padding (s.flatMap (code_of T)).length) '0') H s s.length hv hl
  refine ⟨H, T, _, _, s ++ extra, s.length + extra.length, hH, hT, he, hun, ?_, ?_, ?_, ?_⟩
  · rw [decode_src_codes H hv hl T s hmem, e2, e1]
  · exact List.prefix_append s extra
  · rw [List.length_append]
    rw [List.length_replicate] at e3
    omega
  · rw [List.length_append]

theorem C19_witness :
    is_freqtable (occurrences [65, 65, 66, 65, 66, 66, 66]) ∧
    (∃ a ∈ [(65 : symbol_t), 65, 66, 65, 66, 66, 66],
      ∃ b ∈ [(65 : symbol_t), 65, 66, 65, 66, 66, 66], a ≠ b) ∧
    ∃ H T e bits out n,
      build_htree list_pq (occurrences [65, 65, 66, 65, 66, 66, 66]) = .ok H ∧
      htree_to_codetable H = .ok T ∧
      encode_src T [65, 65, 66, 65, 66, 66, 66]
        [(65 : symbol_t), 65, 66, 65, 66, 66, 66].length = .ok e ∧
      unpack (pack e) ((e.length + 7) / 8) = .ok bits ∧
      decode_src H bits = .ok (out, n) ∧
      [(65 : symbol_t), 65, 66, 65, 66, 66, 66] <+: out ∧
      out.length ≤ [(65 : symbol_t), 65, 66, 65, 66, 66, 66].length + 7 ∧ n = out.length :=
  ⟨is_freqtable_occurrences _ (by decide), ⟨65, by simp, 66, by simp, by decide⟩,
    C19_pipeline_output_starts_with_input list_pq [65, 65, 66, 65, 66, 66, 66]
      (is_freqtable_occurrences _ (by decide)) ⟨65, by simp, 66, by simp, by decide⟩⟩
end Huffman
